import Mathlib

/-!
# Verification of the gateway-route-manager route/gateway/DDNS logic

A shallow embedding, in Lean 4, of the core pure logic of the
`gateway-route-manager` repository:

* `pkg/iputil`  — IPv4 comparison, increment, and CIDR network reduction
  (`ReduceNetworks` with its sort / dedup / subset-removal / adjacent-merge
  pipeline);
* `pkg/routes`  — the netlink route-plane installer (`excludeNetworks`,
  `addRules`, `removeRules`, `removeRoutes`, `Close`, `UpdateDefaultRoute`)
  over an explicit kernel state (rule list, route list) with injectable
  operation failures;
* `pkg/gateway` — gateway list generation (`GenerateGateways`) and the
  public-IP fetch pipeline (`FetchPublicIP`);
* `pkg/ddns`    — the schedule/coalescing logic of the DDNS updater
  (`ScheduleUpdate`).

IPv4 addresses are modelled as natural numbers below `2^32` (the byte-wise
operations of the Go code on 4-byte `net.IP` values correspond exactly to
arithmetic on the 32-bit value, byte-lexicographic comparison being numeric
comparison for big-endian bytes).  Machine integers from the Go code are
modelled as `Int`/`Nat` with explicit bounds where they matter.  Fallible
operations return `Except`/`Option` or carry explicit error components.
-/

namespace GatewayRouteManager

/-! ## Generic insertion sort

Go's `sort.Slice` and `slices.Sort` sort a slice in place with a strict
`less` comparator; the result is a permutation of the input with no
inversions.  In every use in this repository the comparator's ties are
exactly equality of the compared values, so the result list is independent
of the particular sorting algorithm; we model the sorts by insertion sort
with the source's comparator. -/

def insertBy (lt : α → α → Bool) (x : α) : List α → List α
  | [] => [x]
  | y :: ys => if lt x y then x :: y :: ys else y :: insertBy lt x ys

def sortBy (lt : α → α → Bool) : List α → List α
  | [] => []
  | x :: xs => insertBy lt x (sortBy lt xs)

theorem mem_insertBy (lt : α → α → Bool) (x a : α) (l : List α) :
    a ∈ insertBy lt x l ↔ a = x ∨ a ∈ l := by
  induction l with
  | nil => simp [insertBy]
  | cons y ys ih =>
      by_cases h : lt x y
      · simp [insertBy, h]
      · simp only [insertBy, h, if_neg, Bool.false_eq_true, if_false, List.mem_cons, ih]
        tauto

theorem insertBy_perm (lt : α → α → Bool) (x : α) (l : List α) :
    List.Perm (insertBy lt x l) (x :: l) := by
  induction l with
  | nil => simp [insertBy]
  | cons y ys ih =>
      by_cases h : lt x y
      · simp [insertBy, h]
      · simp only [insertBy, h, Bool.false_eq_true, if_false]
        exact (ih.cons y).trans (List.Perm.swap x y ys)

theorem sortBy_perm (lt : α → α → Bool) (l : List α) :
    List.Perm (sortBy lt l) l := by
  induction l with
  | nil => simp [sortBy]
  | cons x xs ih =>
      exact (insertBy_perm lt x (sortBy lt xs)).trans (ih.cons x)

theorem mem_sortBy (lt : α → α → Bool) (a : α) (l : List α) :
    a ∈ sortBy lt l ↔ a ∈ l :=
  (sortBy_perm lt l).mem_iff

theorem sortBy_length (lt : α → α → Bool) (l : List α) :
    (sortBy lt l).length = l.length :=
  (sortBy_perm lt l).length_eq

/-- "No inversions" w.r.t. the comparator: the postcondition of Go's
in-place sorts. -/
def SortedBy (lt : α → α → Bool) (l : List α) : Prop :=
  l.Pairwise (fun a b => lt b a = false)

theorem sortedBy_insertBy (lt : α → α → Bool)
    (htr : ∀ a b c, lt a b = true → lt b c = true → lt a c = true)
    (hasym : ∀ a b, lt a b = true → lt b a = false)
    (x : α) (l : List α) (hl : SortedBy lt l) :
    SortedBy lt (insertBy lt x l) := by
  induction l with
  | nil => simp [insertBy, SortedBy]
  | cons y ys ih =>
      rcases List.pairwise_cons.mp hl with ⟨hy, hys⟩
      by_cases h : lt x y
      · simp only [insertBy, h, if_true]
        refine List.pairwise_cons.mpr ⟨?_, hl⟩
        intro z hz
        rcases List.mem_cons.mp hz with rfl | hz
        · exact hasym _ _ h
        · -- z ∈ ys; from lt x y and sorted, lt z x must be false
          cases hzx : lt z x with
          | false => rfl
          | true => exact absurd (htr z x y hzx h) (by simp [hy z hz])
      · simp only [insertBy, h, Bool.false_eq_true, if_false]
        refine List.pairwise_cons.mpr ⟨?_, ih hys⟩
        intro z hz
        rcases (mem_insertBy lt x z ys).mp hz with rfl | hz
        · simpa using h
        · exact hy z hz

theorem sortedBy_sortBy (lt : α → α → Bool)
    (htr : ∀ a b c, lt a b = true → lt b c = true → lt a c = true)
    (hasym : ∀ a b, lt a b = true → lt b a = false)
    (l : List α) : SortedBy lt (sortBy lt l) := by
  induction l with
  | nil => simp [sortBy, SortedBy]
  | cons x xs ih => exact sortedBy_insertBy lt htr hasym x (sortBy lt xs) ih

theorem insertBy_of_le_all (lt : α → α → Bool)
    (hties : ∀ a b, lt a b = false → lt b a = false → a = b)
    (x : α) (l : List α) (hall : ∀ z ∈ l, lt z x = false) :
    insertBy lt x l = x :: l := by
  induction l with
  | nil => rfl
  | cons y ys ih =>
      by_cases h : lt x y
      · simp [insertBy, h]
      · have hyx : lt y x = false := hall y (List.mem_cons_self y ys)
        have hxy : x = y := hties x y (by simpa using h) hyx
        simp only [insertBy, h, Bool.false_eq_true, if_false]
        rw [ih (fun z hz => hall z (List.mem_cons_of_mem y hz))]
        rw [hxy]

/-- Sorting a list that already has no inversions is the identity: the Go
sorts leave an already-sorted slice unchanged (ties being equalities). -/
theorem sortBy_eq_of_sorted (lt : α → α → Bool)
    (hties : ∀ a b, lt a b = false → lt b a = false → a = b)
    (l : List α) (hl : SortedBy lt l) : sortBy lt l = l := by
  induction l with
  | nil => rfl
  | cons x xs ih =>
      rcases List.pairwise_cons.mp hl with ⟨hx, hxs⟩
      simp only [sortBy]
      rw [ih hxs]
      exact insertBy_of_le_all lt hties x xs hx

theorem map_insertBy (lt : α → α → Bool) (lt' : β → β → Bool) (f : α → β)
    (hf : ∀ a b, lt' (f a) (f b) = lt a b) (x : α) (l : List α) :
    (insertBy lt x l).map f = insertBy lt' (f x) (l.map f) := by
  induction l with
  | nil => rfl
  | cons y ys ih =>
      by_cases h : lt x y
      · simp [insertBy, h, hf]
      · simp [insertBy, h, hf, ih]

theorem map_sortBy (lt : α → α → Bool) (lt' : β → β → Bool) (f : α → β)
    (hf : ∀ a b, lt' (f a) (f b) = lt a b) (l : List α) :
    (sortBy lt l).map f = sortBy lt' (l.map f) := by
  induction l with
  | nil => rfl
  | cons x xs ih => simp only [sortBy, List.map_cons, map_insertBy lt lt' f hf, ih]

/-! ## Go string comparison

Go compares strings byte-wise lexicographically.  Every string compared in
this repository (dotted-quad IP forms, CIDR forms) is ASCII, where byte-wise
comparison coincides with character-code comparison. -/

def charListLt : List Char → List Char → Bool
  | [], [] => false
  | [], _ :: _ => true
  | _ :: _, [] => false
  | a :: as, b :: bs =>
      if a.toNat < b.toNat then true
      else if b.toNat < a.toNat then false
      else charListLt as bs

theorem charListLt_trans : ∀ as bs cs, charListLt as bs = true →
    charListLt bs cs = true → charListLt as cs = true := by
  intro as
  induction as with
  | nil =>
      intro bs cs h1 h2
      cases bs with
      | nil => simpa [charListLt] using h2
      | cons b bs =>
          cases cs with
          | nil => simp [charListLt] at h2
          | cons c cs => simp [charListLt]
  | cons a as ih =>
      intro bs cs h1 h2
      cases bs with
      | nil => simp [charListLt] at h1
      | cons b bs =>
          cases cs with
          | nil => simp [charListLt] at h2
          | cons c cs =>
              simp only [charListLt] at h1 h2 ⊢
              by_cases hab : a.toNat < b.toNat <;> by_cases hbc : b.toNat < c.toNat <;>
                by_cases hac : a.toNat < c.toNat <;> simp_all
              · exact Or.inl (by omega)
              · exact Or.inl (by omega)
              · exact Or.inl (by omega)
              · exact Or.inr ⟨by omega, ih bs cs h1.2 h2.2⟩

theorem charListLt_asymm : ∀ as bs, charListLt as bs = true →
    charListLt bs as = false := by
  intro as
  induction as with
  | nil =>
      intro bs h
      cases bs with
      | nil => simp [charListLt] at h
      | cons b bs => simp [charListLt]
  | cons a as ih =>
      intro bs h
      cases bs with
      | nil => simp [charListLt] at h
      | cons b bs =>
          simp only [charListLt] at h ⊢
          by_cases hab : a.toNat < b.toNat <;> by_cases hba : b.toNat < a.toNat <;>
            simp_all
          omega

theorem charListLt_ties : ∀ as bs, charListLt as bs = false →
    charListLt bs as = false → as = bs := by
  intro as
  induction as with
  | nil =>
      intro bs h1 _
      cases bs with
      | nil => rfl
      | cons b bs => simp [charListLt] at h1
  | cons a as ih =>
      intro bs h1 h2
      cases bs with
      | nil => simp [charListLt] at h2
      | cons b bs =>
          simp only [charListLt] at h1 h2
          by_cases hab : a.toNat < b.toNat <;> by_cases hba : b.toNat < a.toNat <;>
            simp_all
          have h3 : a.toNat = b.toNat := by omega
          have hab' : a = b :=
            Char.eq_of_val_eq (UInt32.eq_of_val_eq (Fin.eq_of_val_eq h3))
          exact ⟨hab', ih bs h1 h2⟩

/-- Byte-wise lexicographic string comparison, as Go's `<` on `string`. -/
def goStrLt (s t : String) : Bool := charListLt s.data t.data

theorem goStrLt_trans (a b c : String) (h1 : goStrLt a b = true)
    (h2 : goStrLt b c = true) : goStrLt a c = true :=
  charListLt_trans a.data b.data c.data h1 h2

theorem goStrLt_asymm (a b : String) (h : goStrLt a b = true) :
    goStrLt b a = false :=
  charListLt_asymm a.data b.data h

theorem goStrLt_ties (a b : String) (h1 : goStrLt a b = false)
    (h2 : goStrLt b a = false) : a = b := by
  have hd : a.data = b.data := charListLt_ties a.data b.data h1 h2
  cases a; cases b; exact congrArg String.mk hd

/-! ## IPv4 addresses

A 4-byte `net.IP` is modelled as its 32-bit value.  `net.IP.String` renders
the dotted-quad decimal form; `iputil.IsIPGreater` compares the four bytes
big-endian first, which is numeric comparison of the 32-bit values. -/

def ipUpper : Nat := 4294967296

/-- `net.IPv4bcast`, the maximum IPv4 address `255.255.255.255`. -/
def ipMax : Nat := 4294967295

/-- `net.IP.String` for a 4-byte IP: dotted-quad decimal form. -/
def ipToString (ip : Nat) : String :=
  toString (ip / 16777216 % 256) ++ "." ++ toString (ip / 65536 % 256) ++ "." ++
    toString (ip / 256 % 256) ++ "." ++ toString (ip % 256)

/-- `iputil.IsIPGreater`: true iff `ip1` is numerically greater (first
differing byte decides; equal IPs compare not-greater). -/
def IsIPGreater (ip1 ip2 : Nat) : Bool := ip2 < ip1

inductive IpIncrErr where
  | overflow
deriving DecidableEq, Repr

/-- `iputil.IncrementIP` on a 4-byte IPv4 address: fails on
`255.255.255.255`, otherwise adds one (the byte-wise carry loop on the
4-byte form computes exactly `+1` once the overflow guard has passed). -/
def IncrementIP (ip : Nat) : Except IpIncrErr Nat :=
  if ip = ipMax then .error .overflow else .ok (ip + 1)

/-! ## `pkg/iputil`: CIDR networks and `ReduceNetworks`

A `*net.IPNet` in IPv4 CIDR form: a 4-byte IP value together with a
`net.CIDRMask(len, 32)` mask of `len` leading one bits. -/

structure IPNet where
  ip : Nat
  len : Nat
deriving DecidableEq, Repr

/-- Clearing the host bits below prefix length `len`: the byte-wise AND
with `net.CIDRMask(len, 32)` on a 4-byte address. -/
def maskIp (ip len : Nat) : Nat := ip / 2 ^ (32 - len) * 2 ^ (32 - len)

/-- The bit of `ip` at (1-based) position `len` from the most significant
bit: Go's `(addr[bytePos] >> bitPos) & 1` with `bytePos = (len-1)/8`,
`bitPos = 7 - (len-1)%8`. -/
def bitAt (ip len : Nat) : Nat := ip / 2 ^ (32 - len) % 2

/-- `net.IPNet.Contains`: the address and the network IP agree after
masking with the network's mask. -/
def covers (p : IPNet) (a : Nat) : Prop := maskIp a p.len = maskIp p.ip p.len

instance (p : IPNet) (a : Nat) : Decidable (covers p a) :=
  inferInstanceAs (Decidable (_ = _))

/-- An IPv4 address is covered by some network of the list. -/
def coveredBy (l : List IPNet) (a : Nat) : Prop := ∃ p ∈ l, covers p a

/-- A well-formed IPv4 CIDR network: 32-bit IP value, prefix length at
most 32, and no host bits set below the prefix (the canonical form
produced by `net.ParseCIDR`). -/
def IPNet.Wf (p : IPNet) : Prop :=
  p.ip < ipUpper ∧ p.len ≤ 32 ∧ maskIp p.ip p.len = p.ip

instance (p : IPNet) : Decidable p.Wf :=
  inferInstanceAs (Decidable (_ ∧ _ ∧ _))

/-- The `sortNetworks` comparator: by IP address first (byte-wise, equal
to numeric order), then longer prefixes first. -/
def netLess (a b : IPNet) : Bool :=
  decide (a.ip < b.ip) || (decide (a.ip = b.ip) && decide (b.len < a.len))

/-- `iputil.sortNetworks`. -/
def sortNetworks (l : List IPNet) : List IPNet := sortBy netLess l

/-- The recursion of `removeDuplicateNetworks`.  The Go code keys its
`seen` map by `net.IPNet.String()`; for IPv4 CIDR networks the string
`"<ip>/<len>"` determines exactly the `(ip, len)` pair, which the model
compares directly. -/
def dedupAux (seen : List IPNet) : List IPNet → List IPNet
  | [] => []
  | x :: xs =>
      if x ∈ seen then dedupAux seen xs else x :: dedupAux (x :: seen) xs

/-- `iputil.removeDuplicateNetworks`: drops later exact duplicates. -/
def removeDuplicateNetworks (l : List IPNet) : List IPNet :=
  if l.length ≤ 1 then l else dedupAux [] l

/-- `iputil.isSubnetOf`: true iff `sub` is a subset of (or equal to)
`network`.  Both masks report 32 total bits for IPv4, so the bit-size
check of the Go code always passes here. -/
def isSubnetOf (sub network : IPNet) : Bool :=
  decide (network.len ≤ sub.len) &&
    decide (maskIp sub.ip network.len = maskIp network.ip network.len)

/-- The loop of `removeSubsetNetworks`: an element is dropped when it is
a subnet of an element at *any other index* of the original list (`front`
holds the already-processed elements, dropped ones included, exactly as
the Go code's inner loop ranges over the whole original slice). -/
def removeSubsetAux (front : List IPNet) : List IPNet → List IPNet
  | [] => []
  | x :: xs =>
      if (front ++ xs).any (fun y => isSubnetOf x y) then
        removeSubsetAux (front ++ [x]) xs
      else
        x :: removeSubsetAux (front ++ [x]) xs

/-- `iputil.removeSubsetNetworks`. -/
def removeSubsetNetworks (l : List IPNet) : List IPNet :=
  if l.length ≤ 1 then l else removeSubsetAux [] l

/-- `iputil.tryMergeNetworks`: merge two same-length IPv4 networks whose
`(len-1)`-bit parents coincide and whose distinguishing bits differ into
the parent network. -/
def tryMergeNetworks (n1 n2 : IPNet) : Option IPNet :=
  if n1.len = n2.len then
    if n1.len = 0 then none
    else
      -- network addresses after masking (Go applies `net1.Mask` to both)
      let a1 := maskIp n1.ip n1.len
      let a2 := maskIp n2.ip n1.len
      let p1 := maskIp a1 (n1.len - 1)
      let p2 := maskIp a2 (n1.len - 1)
      if p1 = p2 then
        if bitAt a1 n1.len = bitAt a2 n1.len then none
        else some ⟨p1, n1.len - 1⟩
      else none
  else none

/-- Find the first later element mergeable with `x`, returning the parent
and the remaining elements (Go's inner `j` loop with its `used` marks). -/
def findMerge (x : IPNet) : List IPNet → Option (IPNet × List IPNet)
  | [] => none
  | y :: ys =>
      match tryMergeNetworks x y with
      | some p => some (p, ys)
      | none =>
          match findMerge x ys with
          | some (p, rest) => some (p, y :: rest)
          | none => none

theorem findMerge_spec (x : IPNet) :
    ∀ l p rest, findMerge x l = some (p, rest) →
      ∃ pre y post, l = pre ++ y :: post ∧ rest = pre ++ post ∧
        tryMergeNetworks x y = some p := by
  intro l
  induction l with
  | nil => intro p rest h; simp [findMerge] at h
  | cons y ys ih =>
      intro p rest h
      simp only [findMerge] at h
      cases hm : tryMergeNetworks x y with
      | some q =>
          rw [hm] at h
          simp only [Option.some.injEq, Prod.mk.injEq] at h
          exact ⟨[], y, ys, by simp, by simp [← h.2], by rw [hm, h.1]⟩
      | none =>
          rw [hm] at h
          cases hf : findMerge x ys with
          | none => rw [hf] at h; simp at h
          | some pr =>
              rw [hf] at h
              obtain ⟨p', rest'⟩ := pr
              simp only [Option.some.injEq, Prod.mk.injEq] at h
              obtain ⟨pre, z, post, hl, hr, hm'⟩ := ih p' rest' hf
              exact ⟨y :: pre, z, post, by simp [hl], by simp [← h.2, hr], by
                rw [hm', h.1]⟩

theorem findMerge_length (x : IPNet) (l : List IPNet) (p : IPNet)
    (rest : List IPNet) (h : findMerge x l = some (p, rest)) :
    rest.length + 1 = l.length := by
  obtain ⟨pre, y, post, hl, hr, _⟩ := findMerge_spec x l p rest h
  subst hl hr
  simp only [List.length_append, List.length_cons]
  omega

/-- The body of `mergeAdjacentNetworks`: scan for disjoint mergeable
pairs, replacing each pair found by its parent. -/
def mergeAdjacent : List IPNet → List IPNet
  | [] => []
  | x :: xs =>
      match h : findMerge x xs with
      | none => x :: mergeAdjacent xs
      | some (p, rest) => p :: mergeAdjacent rest
termination_by l => l.length
decreasing_by
  · simp
  · have := findMerge_length x xs p rest h
    simp
    omega

/-- `iputil.mergeAdjacentNetworks`. -/
def mergeAdjacentNetworks (l : List IPNet) : List IPNet :=
  if l.length ≤ 1 then l else mergeAdjacent l

theorem mergeAdjacent_cons_none (x : IPNet) (xs : List IPNet)
    (h : findMerge x xs = none) :
    mergeAdjacent (x :: xs) = x :: mergeAdjacent xs := by
  rw [mergeAdjacent]
  split
  · rfl
  · rename_i p rest heq
    rw [h] at heq
    cases heq

theorem mergeAdjacent_cons_some (x : IPNet) (xs : List IPNet) (p : IPNet)
    (rest : List IPNet) (h : findMerge x xs = some (p, rest)) :
    mergeAdjacent (x :: xs) = p :: mergeAdjacent rest := by
  rw [mergeAdjacent]
  split
  · rename_i heq
    rw [h] at heq
    cases heq
  · rename_i q rest' heq
    rw [h] at heq
    cases heq
    rfl

theorem mergeAdjacent_length_le :
    ∀ l : List IPNet, (mergeAdjacent l).length ≤ l.length := by
  suffices h : ∀ n l, List.length l = n → (mergeAdjacent l).length ≤ l.length by
    intro l; exact h l.length l rfl
  intro n
  induction n using Nat.strong_induction_on with
  | _ n ih =>
      intro l hn
      cases l with
      | nil => simp [mergeAdjacent]
      | cons x xs =>
          cases hf : findMerge x xs with
          | none =>
              rw [mergeAdjacent_cons_none x xs hf]
              have := ih xs.length (by simp at hn; omega) xs rfl
              simp
              omega
          | some pr =>
              obtain ⟨p, rest⟩ := pr
              rw [mergeAdjacent_cons_some x xs p rest hf]
              have hlen := findMerge_length x xs p rest hf
              have := ih rest.length (by simp at hn; omega) rest rfl
              simp at hn ⊢
              omega

theorem mergeAdjacentNetworks_length_le (l : List IPNet) :
    (mergeAdjacentNetworks l).length ≤ l.length := by
  unfold mergeAdjacentNetworks
  split
  · exact Nat.le_refl _
  · exact mergeAdjacent_length_le l

theorem sortNetworks_length (l : List IPNet) :
    (sortNetworks l).length = l.length := sortBy_length netLess l

/-- The merge loop of `ReduceNetworks`: merge until a round merges no
pair (leaving the round's result, of unchanged length, aside), re-sorting
after each merging round. -/
def reduceLoop (l : List IPNet) : List IPNet :=
  if (mergeAdjacentNetworks l).length = l.length then l
  else reduceLoop (sortNetworks (mergeAdjacentNetworks l))
termination_by l.length
decreasing_by
  have h1 := mergeAdjacentNetworks_length_le l
  rw [sortNetworks_length]
  omega

/-- `iputil.ReduceNetworks`: sort, drop duplicates, drop subsets, then
merge adjacent same-size halves to a fixed point. -/
def ReduceNetworks (networks : List IPNet) : List IPNet :=
  if networks.length ≤ 1 then networks
  else
    let r1 := sortNetworks networks
    let r2 := removeDuplicateNetworks r1
    let r3 := removeSubsetNetworks r2
    reduceLoop r3

/-! ### Mask arithmetic -/

theorem maskIp_le (x len : Nat) : maskIp x len ≤ x := Nat.div_mul_le_self x _

theorem maskIp_coarsen {k m : Nat} (h : k ≤ m) (x : Nat) :
    maskIp (maskIp x m) k = maskIp x k := by
  unfold maskIp
  obtain ⟨d, hd⟩ : ∃ d, 32 - k = (32 - m) + d := ⟨(32 - k) - (32 - m), by omega⟩
  rw [hd, pow_add]
  congr 1
  rw [Nat.mul_comm (x / 2 ^ (32 - m)) (2 ^ (32 - m)),
    Nat.mul_div_mul_left _ _ (Nat.pos_pow_of_pos (32 - m) (by norm_num)),
    Nat.div_div_eq_div_mul]

theorem maskIp_idem (x m : Nat) : maskIp (maskIp x m) m = maskIp x m :=
  maskIp_coarsen (Nat.le_refl m) x

theorem maskIp_32 (x : Nat) : maskIp x 32 = x := by
  unfold maskIp
  norm_num

theorem maskIp_lt {x : Nat} (hx : x < ipUpper) (len : Nat) :
    maskIp x len < ipUpper :=
  Nat.lt_of_le_of_lt (maskIp_le x len) hx

theorem bitAt_lt_two (x len : Nat) : bitAt x len < 2 :=
  Nat.mod_lt _ (by norm_num)

theorem bitAt_maskIp (x len : Nat) : bitAt (maskIp x len) len = bitAt x len := by
  unfold bitAt maskIp
  rw [Nat.mul_div_cancel _ (Nat.pos_pow_of_pos (32 - len) (by norm_num))]

theorem maskIp_decomp (x len : Nat) (h1 : 1 ≤ len) (h2 : len ≤ 32) :
    maskIp x len = maskIp x (len - 1) + bitAt x len * 2 ^ (32 - len) := by
  unfold maskIp bitAt
  have h3 : 32 - (len - 1) = (32 - len) + 1 := by omega
  rw [h3, pow_succ]
  rw [show x / (2 ^ (32 - len) * 2) = x / 2 ^ (32 - len) / 2 from
    (Nat.div_div_eq_div_mul x (2 ^ (32 - len)) 2).symm]
  have hdm := Nat.div_add_mod (x / 2 ^ (32 - len)) 2
  calc x / 2 ^ (32 - len) * 2 ^ (32 - len)
      = (2 * (x / 2 ^ (32 - len) / 2) + x / 2 ^ (32 - len) % 2) * 2 ^ (32 - len) := by
        rw [hdm]
    _ = x / 2 ^ (32 - len) / 2 * (2 ^ (32 - len) * 2) +
          x / 2 ^ (32 - len) % 2 * 2 ^ (32 - len) := by ring

/-! ### The `sortNetworks` comparator is a linear preorder with
equalities as ties -/

theorem netLess_iff (a b : IPNet) :
    netLess a b = true ↔ a.ip < b.ip ∨ (a.ip = b.ip ∧ b.len < a.len) := by
  simp [netLess]

theorem netLess_trans (a b c : IPNet) (h1 : netLess a b = true)
    (h2 : netLess b c = true) : netLess a c = true := by
  rw [netLess_iff] at h1 h2 ⊢
  omega

theorem netLess_asymm (a b : IPNet) (h : netLess a b = true) :
    netLess b a = false := by
  rw [netLess_iff] at h
  cases hn : netLess b a with
  | false => rfl
  | true => rw [netLess_iff] at hn; omega

theorem netLess_ties (a b : IPNet) (h1 : netLess a b = false)
    (h2 : netLess b a = false) : a = b := by
  have e1 : ¬ (netLess a b = true) := by simp [h1]
  have e2 : ¬ (netLess b a = true) := by simp [h2]
  rw [netLess_iff] at e1 e2
  cases a with
  | mk aip alen =>
      cases b with
      | mk bip blen =>
          simp only [IPNet.mk.injEq]
          simp at e1 e2
          omega

/-! ### Subnet relation -/

theorem isSubnetOf_iff (s n : IPNet) :
    isSubnetOf s n = true ↔
      n.len ≤ s.len ∧ maskIp s.ip n.len = maskIp n.ip n.len := by
  simp [isSubnetOf]

theorem isSubnetOf_refl (p : IPNet) : isSubnetOf p p = true := by
  rw [isSubnetOf_iff]
  exact ⟨Nat.le_refl _, rfl⟩

theorem isSubnetOf_trans {x y z : IPNet} (h1 : isSubnetOf x y = true)
    (h2 : isSubnetOf y z = true) : isSubnetOf x z = true := by
  rw [isSubnetOf_iff] at h1 h2 ⊢
  obtain ⟨hl1, hm1⟩ := h1
  obtain ⟨hl2, hm2⟩ := h2
  refine ⟨Nat.le_trans hl2 hl1, ?_⟩
  calc maskIp x.ip z.len
      = maskIp (maskIp x.ip y.len) z.len := (maskIp_coarsen hl2 x.ip).symm
    _ = maskIp (maskIp y.ip y.len) z.len := by rw [hm1]
    _ = maskIp y.ip z.len := maskIp_coarsen hl2 y.ip
    _ = maskIp z.ip z.len := hm2

theorem covers_of_subnet {x y : IPNet} (h : isSubnetOf x y = true)
    {a : Nat} (hc : covers x a) : covers y a := by
  rw [isSubnetOf_iff] at h
  obtain ⟨hl, hm⟩ := h
  unfold covers at hc ⊢
  calc maskIp a y.len
      = maskIp (maskIp a x.len) y.len := (maskIp_coarsen hl a).symm
    _ = maskIp (maskIp x.ip x.len) y.len := by rw [hc]
    _ = maskIp x.ip y.len := maskIp_coarsen hl x.ip
    _ = maskIp y.ip y.len := hm

/-- Two well-formed networks with the same prefix length related by the
subnet relation are equal. -/
theorem subnet_eq_of_len_eq {y z : IPNet} (hy : y.Wf) (hz : z.Wf)
    (h : isSubnetOf y z = true) (hl : z.len = y.len) : y = z := by
  rw [isSubnetOf_iff] at h
  obtain ⟨_, hm⟩ := h
  have hyip : y.ip = z.ip := by
    have := hy.2.2
    have := hz.2.2
    rw [hl] at hm
    calc y.ip = maskIp y.ip y.len := hy.2.2.symm
      _ = maskIp z.ip y.len := by rw [← hl] at hm ⊢; exact hm
      _ = maskIp z.ip z.len := by rw [hl]
      _ = z.ip := hz.2.2
  cases y with
  | mk yip ylen =>
      cases z with
      | mk zip zlen => simp_all

/-! ### Facts about `tryMergeNetworks` -/

theorem tryMerge_some {n1 n2 p : IPNet} (h : tryMergeNetworks n1 n2 = some p) :
    n1.len = n2.len ∧ 1 ≤ n1.len ∧
      p = ⟨maskIp (maskIp n1.ip n1.len) (n1.len - 1), n1.len - 1⟩ ∧
      maskIp (maskIp n1.ip n1.len) (n1.len - 1) =
        maskIp (maskIp n2.ip n1.len) (n1.len - 1) ∧
      bitAt (maskIp n1.ip n1.len) n1.len ≠ bitAt (maskIp n2.ip n1.len) n1.len := by
  simp only [tryMergeNetworks] at h
  split at h
  · rename_i hlen
    split at h
    · cases h
    · rename_i hlen0
      split at h
      · rename_i hpar
        split at h
        · cases h
        · rename_i hbit
          refine ⟨hlen, by omega, ?_, hpar, hbit⟩
          cases h
          rfl
      · cases h
  · cases h

theorem tryMerge_len {n1 n2 p : IPNet} (h : tryMergeNetworks n1 n2 = some p) :
    p.len + 1 = n1.len ∧ n1.len = n2.len := by
  obtain ⟨hlen, h1, hp, _, _⟩ := tryMerge_some h
  subst hp
  exact ⟨by simp; omega, hlen⟩

theorem tryMerge_wf {n1 n2 p : IPNet} (hw1 : n1.Wf)
    (h : tryMergeNetworks n1 n2 = some p) : p.Wf := by
  obtain ⟨hlen, h1, hp, _, _⟩ := tryMerge_some h
  subst hp
  refine ⟨?_, by have := hw1.2.1; simp; omega, ?_⟩
  · exact maskIp_lt (maskIp_lt hw1.1 _) _
  · simp only
    exact maskIp_idem _ _

theorem tryMerge_sub {n1 n2 p : IPNet} (h : tryMergeNetworks n1 n2 = some p) :
    isSubnetOf n1 p = true ∧ isSubnetOf n2 p = true := by
  obtain ⟨hlen, h1, hp, hpar, _⟩ := tryMerge_some h
  subst hp
  constructor
  · rw [isSubnetOf_iff]
    refine ⟨by simp, ?_⟩
    simp only
    rw [maskIp_idem, maskIp_coarsen (by omega) n1.ip]
  · rw [isSubnetOf_iff]
    refine ⟨by simp; omega, ?_⟩
    simp only
    rw [maskIp_idem, hpar, maskIp_coarsen (by omega) n2.ip]

theorem tryMerge_ne {n1 n2 p : IPNet} (h : tryMergeNetworks n1 n2 = some p) :
    n1 ≠ n2 := by
  obtain ⟨_, _, _, _, hbit⟩ := tryMerge_some h
  intro hcon
  subst hcon
  exact hbit rfl

/-- Core halves arithmetic: an address is in the common parent of two
sibling halves exactly when it is in one of the halves. -/
theorem maskHalves {ip1 ip2 len : Nat} (h1 : 1 ≤ len) (h2 : len ≤ 32)
    (hpar : maskIp (maskIp ip1 len) (len - 1) = maskIp (maskIp ip2 len) (len - 1))
    (hbit : bitAt (maskIp ip1 len) len ≠ bitAt (maskIp ip2 len) len) (x : Nat) :
    maskIp x (len - 1) = maskIp (maskIp ip1 len) (len - 1) ↔
      maskIp x len = maskIp ip1 len ∨ maskIp x len = maskIp ip2 len := by
  have dA1 := maskIp_decomp (maskIp ip1 len) len h1 h2
  rw [maskIp_idem, bitAt_maskIp, maskIp_coarsen (by omega : len - 1 ≤ len)] at dA1
  have dA2 := maskIp_decomp (maskIp ip2 len) len h1 h2
  rw [maskIp_idem, bitAt_maskIp, maskIp_coarsen (by omega : len - 1 ≤ len)] at dA2
  have dx := maskIp_decomp x len h1 h2
  have cx : maskIp (maskIp x len) (len - 1) = maskIp x (len - 1) :=
    maskIp_coarsen (by omega) x
  have c1 : maskIp (maskIp ip1 len) (len - 1) = maskIp ip1 (len - 1) :=
    maskIp_coarsen (by omega) ip1
  have c2 : maskIp (maskIp ip2 len) (len - 1) = maskIp ip2 (len - 1) :=
    maskIp_coarsen (by omega) ip2
  rw [bitAt_maskIp, bitAt_maskIp] at hbit
  rw [c1, c2] at hpar
  rw [c1]
  have hbi1 := bitAt_lt_two ip1 len
  have hbi2 := bitAt_lt_two ip2 len
  have hbix := bitAt_lt_two x len
  constructor
  · intro hx
    rcases (by omega : bitAt ip1 len = 0 ∨ bitAt ip1 len = 1) with h1b | h1b <;>
      rcases (by omega : bitAt ip2 len = 0 ∨ bitAt ip2 len = 1) with h2b | h2b <;>
      rcases (by omega : bitAt x len = 0 ∨ bitAt x len = 1) with hxb | hxb <;>
      rw [h1b] at dA1 hbit <;> rw [h2b] at dA2 hbit <;> rw [hxb] at dx <;>
      omega
  · intro hx
    rcases hx with hx | hx
    · rw [← cx, hx, c1]
    · rw [← cx, hx, c2]
      exact hpar.symm

/-- A well-formed network contained in a merged parent is the parent
itself or is contained in one of the two merged halves. -/
theorem subnet_of_merged {r n1 n2 p : IPNet} (hr : r.Wf) (hw1 : n1.Wf)
    (h : tryMergeNetworks n1 n2 = some p) (hsub : isSubnetOf r p = true) :
    r = p ∨ isSubnetOf r n1 = true ∨ isSubnetOf r n2 = true := by
  obtain ⟨hlen, h1, hp, hpar, hbit⟩ := tryMerge_some h
  have hlen32 : n1.len ≤ 32 := hw1.2.1
  rw [isSubnetOf_iff] at hsub
  obtain ⟨hslen, hsm⟩ := hsub
  have hplen : p.len = n1.len - 1 := by rw [hp]
  have hpip : p.ip = maskIp (maskIp n1.ip n1.len) (n1.len - 1) := by rw [hp]
  have hrP : maskIp r.ip (n1.len - 1) = maskIp (maskIp n1.ip n1.len) (n1.len - 1) := by
    rw [hplen, hpip] at hsm
    rw [hsm, maskIp_idem]
  rcases Nat.lt_or_ge r.len n1.len with hcase | hcase
  · -- r.len = n1.len - 1: r is the parent itself
    left
    have hrlen : r.len = n1.len - 1 := by rw [hplen] at hslen; omega
    have hriq : r.ip = maskIp (maskIp n1.ip n1.len) (n1.len - 1) := by
      calc r.ip = maskIp r.ip r.len := hr.2.2.symm
        _ = maskIp r.ip (n1.len - 1) := by rw [hrlen]
        _ = _ := hrP
    cases r with
    | mk rip rlen =>
        rw [hp]
        simp only [IPNet.mk.injEq]
        exact ⟨hriq, hrlen⟩
  · -- n1.len ≤ r.len: r sits inside one of the halves
    have hh := (maskHalves h1 hlen32 hpar hbit r.ip).mp hrP
    rcases hh with hb | hb
    · right; left
      rw [isSubnetOf_iff]
      exact ⟨hcase, hb⟩
    · right; right
      rw [isSubnetOf_iff]
      exact ⟨by omega, by rw [← hlen]; exact hb⟩

/-- Merging two networks preserves the covered address space exactly. -/
theorem tryMerge_covers {n1 n2 p : IPNet} (hw1 : n1.Wf)
    (h : tryMergeNetworks n1 n2 = some p) (a : Nat) :
    covers p a ↔ covers n1 a ∨ covers n2 a := by
  obtain ⟨hlen, h1, hp, hpar, hbit⟩ := tryMerge_some h
  have hlen32 : n1.len ≤ 32 := hw1.2.1
  have hplen : p.len = n1.len - 1 := by rw [hp]
  have hpip : p.ip = maskIp (maskIp n1.ip n1.len) (n1.len - 1) := by rw [hp]
  unfold covers
  rw [hplen, hpip, maskIp_idem]
  rw [maskHalves h1 hlen32 hpar hbit a]
  rw [← hlen]

/-! ### Stage lemmas: duplicate removal -/

theorem mem_dedupAux (l : List IPNet) :
    ∀ (seen : List IPNet) (x : IPNet),
      x ∈ dedupAux seen l ↔ x ∈ l ∧ x ∉ seen := by
  induction l with
  | nil => intro seen x; simp [dedupAux]
  | cons y ys ih =>
      intro seen x
      by_cases hy : y ∈ seen
      · simp only [dedupAux, if_pos hy, ih, List.mem_cons]
        constructor
        · rintro ⟨h1, h2⟩; exact ⟨Or.inr h1, h2⟩
        · rintro ⟨h1 | h1, h2⟩
          · subst h1; exact absurd hy h2
          · exact ⟨h1, h2⟩
      · simp only [dedupAux, if_neg hy, List.mem_cons, ih]
        by_cases hxy : x = y
        · subst hxy; simp [hy]
        · simp [hxy]

theorem dedupAux_sublist (l : List IPNet) :
    ∀ seen, List.Sublist (dedupAux seen l) l := by
  induction l with
  | nil => intro seen; simp [dedupAux]
  | cons y ys ih =>
      intro seen
      by_cases hy : y ∈ seen
      · simp only [dedupAux, if_pos hy]
        exact (ih seen).cons y
      · simp only [dedupAux, if_neg hy]
        exact (ih (y :: seen)).cons₂ y

theorem dedupAux_nodup (l : List IPNet) :
    ∀ seen, (dedupAux seen l).Nodup := by
  induction l with
  | nil => intro seen; simp [dedupAux]
  | cons y ys ih =>
      intro seen
      by_cases hy : y ∈ seen
      · simp only [dedupAux, if_pos hy]; exact ih seen
      · simp only [dedupAux, if_neg hy]
        refine List.nodup_cons.mpr ⟨?_, ih (y :: seen)⟩
        intro hc
        exact absurd (List.mem_cons_self y seen) ((mem_dedupAux ys (y :: seen) y).mp hc).2

theorem dedupAux_eq_self (l : List IPNet) :
    ∀ seen, (∀ x ∈ l, x ∉ seen) → l.Nodup → dedupAux seen l = l := by
  induction l with
  | nil => intro seen _ _; rfl
  | cons y ys ih =>
      intro seen hdisj hnd
      have hy : y ∉ seen := hdisj y (List.mem_cons_self y ys)
      simp only [dedupAux, if_neg hy]
      congr 1
      refine ih (y :: seen) ?_ (List.nodup_cons.mp hnd).2
      intro x hx
      intro hc
      rcases List.mem_cons.mp hc with rfl | hc
      · exact (List.nodup_cons.mp hnd).1 hx
      · exact hdisj x (List.mem_cons_of_mem y hx) hc

theorem nodup_of_length_le_one {l : List IPNet} (h : l.length ≤ 1) : l.Nodup := by
  cases l with
  | nil => simp
  | cons x xs =>
      cases xs with
      | nil => simp
      | cons y ys => simp at h

theorem removeDuplicateNetworks_sublist (l : List IPNet) :
    List.Sublist (removeDuplicateNetworks l) l := by
  unfold removeDuplicateNetworks
  split
  · exact List.Sublist.refl l
  · exact dedupAux_sublist l []

theorem removeDuplicateNetworks_nodup (l : List IPNet) :
    (removeDuplicateNetworks l).Nodup := by
  unfold removeDuplicateNetworks
  split
  · exact nodup_of_length_le_one (by assumption)
  · exact dedupAux_nodup l []

theorem mem_removeDuplicateNetworks (l : List IPNet) (x : IPNet) :
    x ∈ removeDuplicateNetworks l ↔ x ∈ l := by
  unfold removeDuplicateNetworks
  split
  · exact Iff.rfl
  · rw [mem_dedupAux]
    simp

theorem removeDuplicateNetworks_eq_self {l : List IPNet} (hnd : l.Nodup) :
    removeDuplicateNetworks l = l := by
  unfold removeDuplicateNetworks
  split
  · rfl
  · exact dedupAux_eq_self l [] (by simp) hnd

/-! ### Stage lemmas: subset removal -/

/-- No network of the list is a subnet of a *different* network of the
list (and the list has no duplicates).  This is the postcondition of
`removeSubsetNetworks` and is preserved by the merge rounds. -/
def SubsetFree (l : List IPNet) : Prop :=
  l.Nodup ∧ ∀ x ∈ l, ∀ y ∈ l, x ≠ y → isSubnetOf x y = false

theorem removeSubsetAux_sublist (l : List IPNet) :
    ∀ front, List.Sublist (removeSubsetAux front l) l := by
  induction l with
  | nil => intro front; simp [removeSubsetAux]
  | cons x xs ih =>
      intro front
      unfold removeSubsetAux
      split
      · exact (ih (front ++ [x])).cons x
      · exact (ih (front ++ [x])).cons₂ x

theorem removeSubsetAux_eq_filter (l : List IPNet) :
    ∀ front, (front ++ l).Nodup →
      removeSubsetAux front l =
        l.filter (fun x => !((front ++ l).any fun y => decide (y ≠ x) && isSubnetOf x y)) := by
  induction l with
  | nil => intro front _; simp [removeSubsetAux]
  | cons x xs ih =>
      intro front hnd
      have hx_front : x ∉ front := by
        intro hc
        have := List.disjoint_of_nodup_append hnd
        exact this hc (List.mem_cons_self x xs)
      have hx_xs : x ∉ xs := by
        have h2 := (List.nodup_append.mp hnd).2.1
        exact (List.nodup_cons.mp h2).1
      -- the any-condition over the other positions equals the any-condition
      -- over all positions with the self-comparison masked out
      have hcond : ((front ++ x :: xs).any fun y => decide (y ≠ x) && isSubnetOf x y)
          = ((front ++ xs).any fun y => isSubnetOf x y) := by
        have : ∀ (a b : Bool), (a = true ↔ b = true) → a = b := by
          intro a b h; cases a <;> cases b <;> simp_all
        apply this
        simp only [List.any_eq_true, List.mem_append, List.mem_cons]
        constructor
        · rintro ⟨y, hy, hprop⟩
          simp only [Bool.and_eq_true] at hprop
          obtain ⟨hne, hsub⟩ := hprop
          have hyx : y ≠ x := by simpa using hne
          rcases hy with hy | hy | hy
          · exact ⟨y, Or.inl hy, hsub⟩
          · exact absurd hy hyx
          · exact ⟨y, Or.inr hy, hsub⟩
        · rintro ⟨y, hy, hsub⟩
          have hyx : y ≠ x := by
            rintro rfl
            rcases hy with hy | hy
            · exact hx_front hy
            · exact hx_xs hy
          refine ⟨y, ?_, by simp [hyx, hsub]⟩
          rcases hy with hy | hy
          · exact Or.inl hy
          · exact Or.inr (Or.inr hy)
      have hnd' : (front ++ [x] ++ xs).Nodup := by
        rw [List.append_assoc]
        simpa using hnd
      unfold removeSubsetAux
      rw [List.filter_cons]
      rw [hcond]
      split
      · rename_i hc
        rw [hc]
        simp only [Bool.not_true, Bool.false_eq_true, if_false]
        rw [ih (front ++ [x]) hnd']
        congr 1
        rw [List.append_assoc]
        simp
      · rename_i hc
        rw [Bool.not_eq_true] at hc
        rw [hc]
        simp only [Bool.not_false, if_true]
        congr 1
        rw [ih (front ++ [x]) hnd']
        congr 1
        rw [List.append_assoc]
        simp

theorem removeSubsetNetworks_eq_filter {l : List IPNet} (hnd : l.Nodup) :
    removeSubsetNetworks l =
      l.filter (fun x => !(l.any fun y => decide (y ≠ x) && isSubnetOf x y)) := by
  unfold removeSubsetNetworks
  split
  · rename_i hlen
    cases l with
    | nil => rfl
    | cons a as =>
        cases as with
        | nil => simp
        | cons b bs => simp at hlen
  · have := removeSubsetAux_eq_filter l [] (by simpa using hnd)
    simpa using this

theorem mem_removeSubsetNetworks {l : List IPNet} (hnd : l.Nodup) (x : IPNet) :
    x ∈ removeSubsetNetworks l ↔
      x ∈ l ∧ ∀ y ∈ l, y ≠ x → isSubnetOf x y = false := by
  rw [removeSubsetNetworks_eq_filter hnd]
  rw [List.mem_filter]
  constructor
  · rintro ⟨h1, h2⟩
    refine ⟨h1, ?_⟩
    intro y hy hne
    simp only [Bool.not_eq_true', List.any_eq_false] at h2
    have := h2 y hy
    simpa [hne] using this
  · rintro ⟨h1, h2⟩
    refine ⟨h1, ?_⟩
    simp only [Bool.not_eq_true', List.any_eq_false]
    intro y hy
    by_cases hne : y = x
    · simp [hne]
    · simp [hne, h2 y hy hne]

theorem removeSubsetNetworks_sublist (l : List IPNet) :
    List.Sublist (removeSubsetNetworks l) l := by
  unfold removeSubsetNetworks
  split
  · exact List.Sublist.refl l
  · exact removeSubsetAux_sublist l []

theorem removeSubsetNetworks_subsetFree {l : List IPNet} (hnd : l.Nodup) :
    SubsetFree (removeSubsetNetworks l) := by
  refine ⟨(removeSubsetNetworks_sublist l).nodup hnd, ?_⟩
  intro x hx y hy hne
  have hx' := (mem_removeSubsetNetworks hnd x).mp hx
  have hy' := (mem_removeSubsetNetworks hnd y).mp hy
  exact hx'.2 y hy'.1 (Ne.symm hne)

theorem removeSubsetNetworks_eq_self {l : List IPNet} (hsf : SubsetFree l) :
    removeSubsetNetworks l = l := by
  rw [removeSubsetNetworks_eq_filter hsf.1]
  rw [List.filter_eq_self]
  intro x hx
  simp only [Bool.not_eq_true', List.any_eq_false]
  intro y hy
  by_cases hne : y = x
  · simp [hne]
  · simp [hne, hsf.2 x hx y hy (fun hc => hne hc.symm)]

/-- Every network of the input is covered by a surviving superset in
`removeSubsetNetworks` (well-formedness makes the subset order strictly
decrease the prefix length along removal chains). -/
theorem exists_superset_in_removeSubset {l : List IPNet}
    (hwf : ∀ p ∈ l, p.Wf) (hnd : l.Nodup) :
    ∀ x ∈ l, ∃ y ∈ removeSubsetNetworks l, isSubnetOf x y = true := by
  intro x hx
  -- strong downward induction on the prefix length of the candidate superset
  suffices h : ∀ n, ∀ y ∈ l, y.len ≤ n → isSubnetOf x y = true →
      ∃ z ∈ removeSubsetNetworks l, isSubnetOf x z = true by
    exact h x.len x hx (Nat.le_refl _) (isSubnetOf_refl x)
  intro n
  induction n using Nat.strong_induction_on with
  | _ n ih =>
      intro y hy hylen hsub
      by_cases hsurv : y ∈ removeSubsetNetworks l
      · exact ⟨y, hsurv, hsub⟩
      · -- y was removed: some other network strictly above it exists
        have := (mem_removeSubsetNetworks hnd y).not.mp hsurv
        push_neg at this
        obtain ⟨z, hz, hzne, hzsub⟩ := this hy
        have hzsub' : isSubnetOf y z = true := by
          cases hb : isSubnetOf y z with
          | false => exact absurd hb hzsub
          | true => rfl
        have hzlen : z.len < y.len := by
          have hle : z.len ≤ y.len := ((isSubnetOf_iff y z).mp hzsub').1
          rcases Nat.lt_or_ge z.len y.len with h | h
          · exact h
          · have : z.len = y.len := by omega
            exact absurd (subnet_eq_of_len_eq (hwf y hy) (hwf z hz) hzsub' this) hzne.symm
        exact ih z.len (by omega) z hz (Nat.le_refl _) (isSubnetOf_trans hsub hzsub')

/-! ### Stage lemmas: adjacent merging -/

theorem coveredBy_cons (x : IPNet) (l : List IPNet) (a : Nat) :
    coveredBy (x :: l) a ↔ covers x a ∨ coveredBy l a := by
  unfold coveredBy
  simp

theorem SubsetFree.sublist {l m : List IPNet} (h : SubsetFree l)
    (hs : List.Sublist m l) : SubsetFree m :=
  ⟨h.1.sublist hs, fun x hx y hy hne => h.2 x (hs.subset hx) y (hs.subset hy) hne⟩

theorem subsetFree_cons {a : IPNet} {m : List IPNet}
    (hm : SubsetFree m) (hnotmem : a ∉ m)
    (hab : ∀ z ∈ m, isSubnetOf a z = false ∧ isSubnetOf z a = false) :
    SubsetFree (a :: m) := by
  refine ⟨List.nodup_cons.mpr ⟨hnotmem, hm.1⟩, ?_⟩
  intro x hx y hy hne
  rcases List.mem_cons.mp hx with rfl | hx2
  · rcases List.mem_cons.mp hy with rfl | hy2
    · exact absurd rfl hne
    · exact (hab y hy2).1
  · rcases List.mem_cons.mp hy with rfl | hy2
    · exact (hab x hx2).2
    · exact hm.2 x hx2 y hy2 hne

theorem mem_of_mem_rest {q y : IPNet} {pre post : List IPNet}
    (hq : q ∈ pre ++ post) : q ∈ pre ++ y :: post := by
  rw [List.mem_append] at hq
  rw [List.mem_append, List.mem_cons]
  tauto

/-- Every element of `mergeAdjacent l` is an element of `l` or the merge
of two elements of `l`. -/
theorem mem_mergeAdjacent_origin :
    ∀ l q, q ∈ mergeAdjacent l →
      q ∈ l ∨ ∃ u v, u ∈ l ∧ v ∈ l ∧ tryMergeNetworks u v = some q := by
  suffices h : ∀ n l, List.length l = n → ∀ q, q ∈ mergeAdjacent l →
      q ∈ l ∨ ∃ u v, u ∈ l ∧ v ∈ l ∧ tryMergeNetworks u v = some q by
    exact fun l => h l.length l rfl
  intro n
  induction n using Nat.strong_induction_on with
  | _ n ih =>
      intro l hn q hq
      cases l with
      | nil => simp [mergeAdjacent] at hq
      | cons x xs =>
          cases hf : findMerge x xs with
          | none =>
              rw [mergeAdjacent_cons_none x xs hf] at hq
              rcases List.mem_cons.mp hq with rfl | hq
              · exact Or.inl (List.mem_cons_self _ _)
              · rcases ih xs.length (by simp at hn; omega) xs rfl q hq with h | ⟨u, v, hu, hv, hm⟩
                · exact Or.inl (List.mem_cons_of_mem x h)
                · exact Or.inr ⟨u, v, List.mem_cons_of_mem x hu,
                    List.mem_cons_of_mem x hv, hm⟩
          | some pr =>
              obtain ⟨p, rest⟩ := pr
              rw [mergeAdjacent_cons_some x xs p rest hf] at hq
              obtain ⟨pre, y, post, hxs, hrest, hm⟩ := findMerge_spec x xs p rest hf
              have hylen := findMerge_length x xs p rest hf
              have hymem : y ∈ xs := by rw [hxs]; simp
              rcases List.mem_cons.mp hq with rfl | hq
              · exact Or.inr ⟨x, y, List.mem_cons_self _ _,
                  List.mem_cons_of_mem x hymem, hm⟩
              · rcases ih rest.length (by simp at hn; omega) rest rfl q hq with
                  h | ⟨u, v, hu, hv, hmv⟩
                · refine Or.inl (List.mem_cons_of_mem x ?_)
                  rw [hxs]
                  exact mem_of_mem_rest (hrest ▸ h)
                · refine Or.inr ⟨u, v, ?_, ?_, hmv⟩
                  · exact List.mem_cons_of_mem x (hxs ▸ mem_of_mem_rest (hrest ▸ hu))
                  · exact List.mem_cons_of_mem x (hxs ▸ mem_of_mem_rest (hrest ▸ hv))

theorem mergeAdjacent_wf :
    ∀ l, (∀ p ∈ l, p.Wf) → ∀ q ∈ mergeAdjacent l, q.Wf := by
  intro l hwf q hq
  rcases mem_mergeAdjacent_origin l q hq with h | ⟨u, v, hu, _, hm⟩
  · exact hwf q h
  · exact tryMerge_wf (hwf u hu) hm

theorem mergeAdjacent_covers :
    ∀ l, (∀ p ∈ l, p.Wf) → ∀ a, (coveredBy (mergeAdjacent l) a ↔ coveredBy l a) := by
  suffices h : ∀ n l, List.length l = n → (∀ p ∈ l, p.Wf) →
      ∀ a, (coveredBy (mergeAdjacent l) a ↔ coveredBy l a) by
    exact fun l => h l.length l rfl
  intro n
  induction n using Nat.strong_induction_on with
  | _ n ih =>
      intro l hn hwf a
      cases l with
      | nil => simp [mergeAdjacent]
      | cons x xs =>
          have hwfxs : ∀ p ∈ xs, p.Wf := fun p hp => hwf p (List.mem_cons_of_mem x hp)
          cases hf : findMerge x xs with
          | none =>
              rw [mergeAdjacent_cons_none x xs hf]
              rw [coveredBy_cons, coveredBy_cons,
                ih xs.length (by simp at hn; omega) xs rfl hwfxs a]
          | some pr =>
              obtain ⟨p, rest⟩ := pr
              rw [mergeAdjacent_cons_some x xs p rest hf]
              obtain ⟨pre, y, post, hxs, hrest, hm⟩ := findMerge_spec x xs p rest hf
              have hylen := findMerge_length x xs p rest hf
              have hwfrest : ∀ q ∈ rest, q.Wf := by
                intro q hq
                exact hwfxs q (hxs ▸ mem_of_mem_rest (hrest ▸ hq))
              rw [coveredBy_cons, coveredBy_cons,
                ih rest.length (by simp at hn; omega) rest rfl hwfrest a]
              rw [tryMerge_covers (hwf x (List.mem_cons_self x xs)) hm a]
              -- split xs into y and the rest
              have hxscov : coveredBy xs a ↔ covers y a ∨ coveredBy rest a := by
                unfold coveredBy
                rw [hxs, hrest]
                constructor
                · rintro ⟨q, hq, hc⟩
                  rw [List.mem_append, List.mem_cons] at hq
                  rcases hq with hq | rfl | hq
                  · exact Or.inr ⟨q, by rw [List.mem_append]; exact Or.inl hq, hc⟩
                  · exact Or.inl hc
                  · exact Or.inr ⟨q, by rw [List.mem_append]; exact Or.inr hq, hc⟩
                · rintro (hc | ⟨q, hq, hc⟩)
                  · exact ⟨y, by simp, hc⟩
                  · exact ⟨q, mem_of_mem_rest hq, hc⟩
              rw [hxscov]
              tauto

theorem mergeAdjacent_dichotomy :
    ∀ l : List IPNet, mergeAdjacent l = l ∨ (mergeAdjacent l).length < l.length := by
  suffices h : ∀ n l, List.length l = n →
      (mergeAdjacent l = l ∨ (mergeAdjacent l).length < l.length) by
    exact fun l => h l.length l rfl
  intro n
  induction n using Nat.strong_induction_on with
  | _ n ih =>
      intro l hn
      cases l with
      | nil => exact Or.inl (by simp [mergeAdjacent])
      | cons x xs =>
          cases hf : findMerge x xs with
          | none =>
              rw [mergeAdjacent_cons_none x xs hf]
              rcases ih xs.length (by simp at hn; omega) xs rfl with h | h
              · exact Or.inl (by rw [h])
              · exact Or.inr (by simp; omega)
          | some pr =>
              obtain ⟨p, rest⟩ := pr
              rw [mergeAdjacent_cons_some x xs p rest hf]
              have h1 := findMerge_length x xs p rest hf
              have h2 := mergeAdjacent_length_le rest
              exact Or.inr (by simp; omega)

/-- The key preservation fact: merging keeps the list free of subset
relations (so in particular free of duplicates). -/
theorem mergeAdjacent_subsetFree :
    ∀ l, SubsetFree l → (∀ p ∈ l, p.Wf) → SubsetFree (mergeAdjacent l) := by
  suffices h : ∀ n l, List.length l = n → SubsetFree l → (∀ p ∈ l, p.Wf) →
      SubsetFree (mergeAdjacent l) by
    exact fun l => h l.length l rfl
  intro n
  induction n using Nat.strong_induction_on with
  | _ n ih =>
      intro l hn hsf hwf
      cases l with
      | nil => simpa [mergeAdjacent] using hsf
      | cons x xs =>
          have hxwf : x.Wf := hwf x (List.mem_cons_self x xs)
          have hwfxs : ∀ p ∈ xs, p.Wf := fun p hp => hwf p (List.mem_cons_of_mem x hp)
          have hndl : (x :: xs).Nodup := hsf.1
          have hxnotxs : x ∉ xs := (List.nodup_cons.mp hndl).1
          have hsfxs : SubsetFree xs :=
            hsf.sublist (List.sublist_cons_self x xs)
          cases hf : findMerge x xs with
          | none =>
              rw [mergeAdjacent_cons_none x xs hf]
              have hM := ih xs.length (by simp at hn; omega) xs rfl hsfxs hwfxs
              refine subsetFree_cons hM ?_ ?_
              · -- x cannot reappear among the merged tail
                intro hc
                rcases mem_mergeAdjacent_origin xs x hc with h | ⟨u, v, hu, hv, hm⟩
                · exact hxnotxs h
                · -- u ⊆ x with u ∈ l, x ∈ l, u ≠ x
                  have hsubux : isSubnetOf u x = true := (tryMerge_sub hm).1
                  have hune : u ≠ x := fun hc' => hxnotxs (hc' ▸ hu)
                  have := hsf.2 u (List.mem_cons_of_mem x hu) x (List.mem_cons_self x xs) hune
                  rw [this] at hsubux
                  cases hsubux
              · intro z hz
                rcases mem_mergeAdjacent_origin xs z hz with h | ⟨u, v, hu, hv, hm⟩
                · -- z is an original element distinct from x
                  have hzx : z ≠ x := fun hc => hxnotxs (hc ▸ h)
                  exact ⟨hsf.2 x (List.mem_cons_self x xs) z (List.mem_cons_of_mem x h)
                      (Ne.symm hzx),
                    hsf.2 z (List.mem_cons_of_mem x h) x (List.mem_cons_self x xs) hzx⟩
                · -- z is a merged parent of two tail elements
                  have huwf : u.Wf := hwfxs u hu
                  have hul : u ∈ x :: xs := List.mem_cons_of_mem x hu
                  have hvl : v ∈ x :: xs := List.mem_cons_of_mem x hv
                  have hune : u ≠ x := fun hc => hxnotxs (hc ▸ hu)
                  have hvne : v ≠ x := fun hc => hxnotxs (hc ▸ hv)
                  constructor
                  · -- ¬(x ⊆ z)
                    cases hb : isSubnetOf x z with
                    | false => rfl
                    | true =>
                        rcases subnet_of_merged hxwf huwf hm hb with rfl | hs | hs
                        · -- x is the parent itself: u ⊆ x
                          have hsubux : isSubnetOf u x = true := (tryMerge_sub hm).1
                          have := hsf.2 u hul x (List.mem_cons_self x xs) hune
                          rw [this] at hsubux
                          cases hsubux
                        · have := hsf.2 x (List.mem_cons_self x xs) u hul (Ne.symm hune)
                          rw [this] at hs
                          cases hs
                        · have := hsf.2 x (List.mem_cons_self x xs) v hvl (Ne.symm hvne)
                          rw [this] at hs
                          cases hs
                  · -- ¬(z ⊆ x)
                    cases hb : isSubnetOf z x with
                    | false => rfl
                    | true =>
                        -- u ⊆ z ⊆ x
                        have hsubuz : isSubnetOf u z = true := (tryMerge_sub hm).1
                        have hsubux := isSubnetOf_trans hsubuz hb
                        have := hsf.2 u hul x (List.mem_cons_self x xs) hune
                        rw [this] at hsubux
                        cases hsubux
          | some pr =>
              obtain ⟨p, rest⟩ := pr
              rw [mergeAdjacent_cons_some x xs p rest hf]
              obtain ⟨pre, y, post, hxs, hrest, hm⟩ := findMerge_spec x xs p rest hf
              have hylen := findMerge_length x xs p rest hf
              have hymem : y ∈ xs := by rw [hxs]; simp
              have hywf : y.Wf := hwfxs y hymem
              have hxmem : x ∈ x :: xs := List.mem_cons_self x xs
              have hyl : y ∈ x :: xs := List.mem_cons_of_mem x hymem
              have hrest_sub : List.Sublist rest xs := by
                rw [hxs, hrest]
                exact List.Sublist.append_left (List.sublist_cons_self y post) pre
              have hsfrest : SubsetFree rest := hsfxs.sublist hrest_sub
              have hwfrest : ∀ q ∈ rest, q.Wf := fun q hq => hwfxs q (hrest_sub.subset hq)
              have hrestl : ∀ q, q ∈ rest → q ∈ x :: xs :=
                fun q hq => List.mem_cons_of_mem x (hrest_sub.subset hq)
              have hynotrest : y ∉ rest := by
                have hndxs : xs.Nodup := (List.nodup_cons.mp hndl).2
                rw [hxs] at hndxs
                rw [hrest]
                rw [List.nodup_append] at hndxs
                obtain ⟨hpre, hypost, hdisj⟩ := hndxs
                rw [List.mem_append]
                rintro (hc | hc)
                · exact hdisj hc (List.mem_cons_self y post)
                · exact (List.nodup_cons.mp hypost).1 hc
              have hql_facts : ∀ q ∈ rest, q ≠ x ∧ q ≠ y := by
                intro q hq
                constructor
                · intro hc; exact hxnotxs (hc ▸ hrest_sub.subset hq)
                · intro hc; exact hynotrest (hc ▸ hq)
              have hsubxp : isSubnetOf x p = true := (tryMerge_sub hm).1
              have hsubyp : isSubnetOf y p = true := (tryMerge_sub hm).2
              have hplen : p.len + 1 = x.len := (tryMerge_len hm).1
              have hpne_x : x ≠ p := by
                intro hc
                rw [← hc] at hplen
                omega
              have hM := ih rest.length (by simp at hn; omega) rest rfl hsfrest hwfrest
              refine subsetFree_cons hM ?_ ?_
              · -- the parent cannot already occur in the merged remainder
                intro hc
                rcases mem_mergeAdjacent_origin rest p hc with h | ⟨u, v, hu, hv, hmu⟩
                · -- p ∈ rest ⊆ l, and x ⊊ p
                  have := hsf.2 x hxmem p (hrestl p h) hpne_x
                  rw [this] at hsubxp
                  cases hsubxp
                · -- p = merge u v with u, v ∈ rest: u ⊆ p forces u ⊆ x or u ⊆ y
                  have huwf : u.Wf := hwfrest u hu
                  have hsubup : isSubnetOf u p = true := (tryMerge_sub hmu).1
                  have hulen : p.len + 1 = u.len := (tryMerge_len hmu).1
                  rcases subnet_of_merged huwf hxwf hm hsubup with rfl | hs | hs
                  · omega
                  · have := hsf.2 u (hrestl u hu) x hxmem (hql_facts u hu).1
                    rw [this] at hs
                    cases hs
                  · have := hsf.2 u (hrestl u hu) y hyl (hql_facts u hu).2
                    rw [this] at hs
                    cases hs
              · intro z hz
                rcases mem_mergeAdjacent_origin rest z hz with h | ⟨u, v, hu, hv, hmu⟩
                · -- z an original element of rest
                  have hzwf : z.Wf := hwfrest z h
                  constructor
                  · -- ¬(p ⊆ z)
                    cases hb : isSubnetOf p z with
                    | false => rfl
                    | true =>
                        have hsubxz := isSubnetOf_trans hsubxp hb
                        have := hsf.2 x hxmem z (hrestl z h) (Ne.symm (hql_facts z h).1)
                        rw [this] at hsubxz
                        cases hsubxz
                  · -- ¬(z ⊆ p)
                    cases hb : isSubnetOf z p with
                    | false => rfl
                    | true =>
                        rcases subnet_of_merged hzwf hxwf hm hb with rfl | hs | hs
                        · have := hsf.2 x hxmem z (hrestl z h) (Ne.symm (hql_facts z h).1)
                          rw [this] at hsubxp
                          cases hsubxp
                        · have := hsf.2 z (hrestl z h) x hxmem (hql_facts z h).1
                          rw [this] at hs
                          cases hs
                        · have := hsf.2 z (hrestl z h) y hyl (hql_facts z h).2
                          rw [this] at hs
                          cases hs
                · -- z a merged parent of u, v ∈ rest
                  have huwf : u.Wf := hwfrest u hu
                  have hsubuz : isSubnetOf u z = true := (tryMerge_sub hmu).1
                  have hulen : z.len + 1 = u.len := (tryMerge_len hmu).1
                  constructor
                  · -- ¬(p ⊆ z)
                    cases hb : isSubnetOf p z with
                    | false => rfl
                    | true =>
                        have hsubxz := isSubnetOf_trans hsubxp hb
                        rcases subnet_of_merged hxwf huwf hmu hsubxz with rfl | hs | hs
                        · -- x is the parent z: u ⊆ x
                          have := hsf.2 u (hrestl u hu) x hxmem (hql_facts u hu).1
                          rw [this] at hsubuz
                          cases hsubuz
                        · have := hsf.2 x hxmem u (hrestl u hu) (Ne.symm (hql_facts u hu).1)
                          rw [this] at hs
                          cases hs
                        · have := hsf.2 x hxmem v (hrestl v hv) (Ne.symm (hql_facts v hv).1)
                          rw [this] at hs
                          cases hs
                  · -- ¬(z ⊆ p)
                    cases hb : isSubnetOf z p with
                    | false => rfl
                    | true =>
                        have hsubup := isSubnetOf_trans hsubuz hb
                        rcases subnet_of_merged huwf hxwf hm hsubup with hup | hs | hs
                        · -- the half u coincides with the parent p: then x ⊊ u
                          have hxu : isSubnetOf x u = true := by rw [hup]; exact hsubxp
                          have := hsf.2 x hxmem u (hrestl u hu)
                            (Ne.symm (hql_facts u hu).1)
                          rw [this] at hxu
                          cases hxu
                        · have := hsf.2 u (hrestl u hu) x hxmem (hql_facts u hu).1
                          rw [this] at hs
                          cases hs
                        · have := hsf.2 u (hrestl u hu) y hyl (hql_facts u hu).2
                          rw [this] at hs
                          cases hs

theorem mergeAdjacentNetworks_covers {l : List IPNet} (hwf : ∀ p ∈ l, p.Wf)
    (a : Nat) : coveredBy (mergeAdjacentNetworks l) a ↔ coveredBy l a := by
  unfold mergeAdjacentNetworks
  split
  · exact Iff.rfl
  · exact mergeAdjacent_covers l hwf a

theorem mergeAdjacentNetworks_wf {l : List IPNet} (hwf : ∀ p ∈ l, p.Wf) :
    ∀ q ∈ mergeAdjacentNetworks l, q.Wf := by
  unfold mergeAdjacentNetworks
  split
  · exact hwf
  · exact mergeAdjacent_wf l hwf

theorem mergeAdjacentNetworks_subsetFree {l : List IPNet} (hsf : SubsetFree l)
    (hwf : ∀ p ∈ l, p.Wf) : SubsetFree (mergeAdjacentNetworks l) := by
  unfold mergeAdjacentNetworks
  split
  · exact hsf
  · exact mergeAdjacent_subsetFree l hsf hwf

theorem mergeAdjacentNetworks_dichotomy (l : List IPNet) :
    mergeAdjacentNetworks l = l ∨ (mergeAdjacentNetworks l).length < l.length := by
  unfold mergeAdjacentNetworks
  split
  · exact Or.inl rfl
  · exact mergeAdjacent_dichotomy l

/-! ### Stage lemmas: sorting networks -/

theorem sortNetworks_sorted (l : List IPNet) :
    SortedBy netLess (sortNetworks l) :=
  sortedBy_sortBy netLess netLess_trans netLess_asymm l

theorem sortNetworks_perm (l : List IPNet) :
    List.Perm (sortNetworks l) l := sortBy_perm netLess l

theorem mem_sortNetworks (l : List IPNet) (x : IPNet) :
    x ∈ sortNetworks l ↔ x ∈ l := mem_sortBy netLess x l

theorem sortNetworks_eq_of_sorted {l : List IPNet}
    (hl : SortedBy netLess l) : sortNetworks l = l :=
  sortBy_eq_of_sorted netLess netLess_ties l hl

theorem subsetFree_of_perm {l l' : List IPNet} (hp : List.Perm l l')
    (h : SubsetFree l) : SubsetFree l' :=
  ⟨h.1.perm hp, fun x hx y hy hne =>
    h.2 x (hp.mem_iff.mpr hx) y (hp.mem_iff.mpr hy) hne⟩

theorem coveredBy_congr {l l' : List IPNet}
    (hm : ∀ q : IPNet, q ∈ l ↔ q ∈ l') (a : Nat) :
    coveredBy l a ↔ coveredBy l' a := by
  unfold coveredBy
  constructor
  · rintro ⟨p, hp, hc⟩; exact ⟨p, (hm p).mp hp, hc⟩
  · rintro ⟨p, hp, hc⟩; exact ⟨p, (hm p).mpr hp, hc⟩

/-! ### The merge loop -/

theorem reduceLoop_eq (l : List IPNet) :
    reduceLoop l =
      if (mergeAdjacentNetworks l).length = l.length then l
      else reduceLoop (sortNetworks (mergeAdjacentNetworks l)) := by
  rw [reduceLoop]

theorem reduceLoop_spec :
    ∀ l, SubsetFree l → (∀ p ∈ l, p.Wf) → SortedBy netLess l →
      SubsetFree (reduceLoop l) ∧ (∀ p ∈ reduceLoop l, p.Wf) ∧
        SortedBy netLess (reduceLoop l) ∧
        mergeAdjacentNetworks (reduceLoop l) = reduceLoop l ∧
        (∀ a, coveredBy (reduceLoop l) a ↔ coveredBy l a) := by
  suffices h : ∀ n l, List.length l = n → SubsetFree l → (∀ p ∈ l, p.Wf) →
      SortedBy netLess l →
      SubsetFree (reduceLoop l) ∧ (∀ p ∈ reduceLoop l, p.Wf) ∧
        SortedBy netLess (reduceLoop l) ∧
        mergeAdjacentNetworks (reduceLoop l) = reduceLoop l ∧
        (∀ a, coveredBy (reduceLoop l) a ↔ coveredBy l a) by
    exact fun l => h l.length l rfl
  intro n
  induction n using Nat.strong_induction_on with
  | _ n ih =>
      intro l hn hsf hwf hsorted
      rw [reduceLoop_eq]
      split
      · rename_i hfix
        have hfixed : mergeAdjacentNetworks l = l := by
          rcases mergeAdjacentNetworks_dichotomy l with h | h
          · exact h
          · omega
        exact ⟨hsf, hwf, hsorted, hfixed, fun a => Iff.rfl⟩
      · rename_i hne
        have hlt : (mergeAdjacentNetworks l).length < l.length := by
          rcases mergeAdjacentNetworks_dichotomy l with h | h
          · rw [h] at hne; exact absurd rfl hne
          · exact h
        have hperm := sortNetworks_perm (mergeAdjacentNetworks l)
        have hsf' : SubsetFree (sortNetworks (mergeAdjacentNetworks l)) :=
          subsetFree_of_perm hperm.symm (mergeAdjacentNetworks_subsetFree hsf hwf)
        have hwf' : ∀ p ∈ sortNetworks (mergeAdjacentNetworks l), p.Wf := by
          intro p hp
          exact mergeAdjacentNetworks_wf hwf p ((mem_sortNetworks _ p).mp hp)
        have hsorted' := sortNetworks_sorted (mergeAdjacentNetworks l)
        have hlen' : (sortNetworks (mergeAdjacentNetworks l)).length < n := by
          rw [sortNetworks_length]; omega
        obtain ⟨ha, hb, hc, hd, he⟩ :=
          ih _ hlen' (sortNetworks (mergeAdjacentNetworks l)) rfl hsf' hwf' hsorted'
        refine ⟨ha, hb, hc, hd, ?_⟩
        intro a
        rw [he a]
        rw [coveredBy_congr (fun q => mem_sortNetworks (mergeAdjacentNetworks l) q) a]
        exact mergeAdjacentNetworks_covers hwf a

/-! ### `ReduceNetworks`: coverage preservation and idempotence -/

theorem sortedBy_sublist {lt : α → α → Bool} {l m : List α}
    (hs : List.Sublist m l) (h : SortedBy lt l) : SortedBy lt m :=
  h.sublist hs

/-- The pipeline invariants of the output of `ReduceNetworks`. -/
theorem reduceNetworks_invariants {S : List IPNet} (hwf : ∀ p ∈ S, p.Wf)
    (hlen : ¬ S.length ≤ 1) :
    SubsetFree (ReduceNetworks S) ∧ (∀ p ∈ ReduceNetworks S, p.Wf) ∧
      SortedBy netLess (ReduceNetworks S) ∧
      mergeAdjacentNetworks (ReduceNetworks S) = ReduceNetworks S ∧
      (∀ a, coveredBy (ReduceNetworks S) a ↔ coveredBy S a) := by
  have hwf1 : ∀ p ∈ sortNetworks S, p.Wf :=
    fun p hp => hwf p ((mem_sortNetworks S p).mp hp)
  have hsorted1 := sortNetworks_sorted S
  have hsub2 := removeDuplicateNetworks_sublist (sortNetworks S)
  have hwf2 : ∀ p ∈ removeDuplicateNetworks (sortNetworks S), p.Wf :=
    fun p hp => hwf1 p (hsub2.subset hp)
  have hnd2 := removeDuplicateNetworks_nodup (sortNetworks S)
  have hsorted2 := sortedBy_sublist hsub2 hsorted1
  have hsub3 := removeSubsetNetworks_sublist (removeDuplicateNetworks (sortNetworks S))
  have hwf3 : ∀ p ∈ removeSubsetNetworks (removeDuplicateNetworks (sortNetworks S)), p.Wf :=
    fun p hp => hwf2 p (hsub3.subset hp)
  have hsf3 := removeSubsetNetworks_subsetFree hnd2
  have hsorted3 := sortedBy_sublist hsub3 hsorted2
  obtain ⟨ha, hb, hc, hd, he⟩ := reduceLoop_spec _ hsf3 hwf3 hsorted3
  have hRN : ReduceNetworks S =
      reduceLoop (removeSubsetNetworks (removeDuplicateNetworks (sortNetworks S))) := by
    unfold ReduceNetworks
    rw [if_neg hlen]
  rw [hRN]
  refine ⟨ha, hb, hc, hd, ?_⟩
  intro a
  rw [he a]
  -- subset removal preserves coverage
  have hcov3 : coveredBy (removeSubsetNetworks (removeDuplicateNetworks (sortNetworks S))) a ↔
      coveredBy (removeDuplicateNetworks (sortNetworks S)) a := by
    constructor
    · rintro ⟨p, hp, hc2⟩
      exact ⟨p, hsub3.subset hp, hc2⟩
    · rintro ⟨p, hp, hc2⟩
      obtain ⟨y, hy, hsuby⟩ := exists_superset_in_removeSubset hwf2 hnd2 p hp
      exact ⟨y, hy, covers_of_subnet hsuby hc2⟩
  rw [hcov3]
  rw [coveredBy_congr (fun q => mem_removeDuplicateNetworks (sortNetworks S) q) a]
  rw [coveredBy_congr (fun q => mem_sortNetworks S q) a]

/-- `ReduceNetworks` preserves the covered IPv4 address space. -/
theorem reduceNetworks_covers {S : List IPNet} (hwf : ∀ p ∈ S, p.Wf) (a : Nat) :
    coveredBy (ReduceNetworks S) a ↔ coveredBy S a := by
  by_cases hlen : S.length ≤ 1
  · unfold ReduceNetworks
    rw [if_pos hlen]
  · exact (reduceNetworks_invariants hwf hlen).2.2.2.2 a

/-- `ReduceNetworks` is idempotent. -/
theorem reduceNetworks_idem {S : List IPNet} (hwf : ∀ p ∈ S, p.Wf) :
    ReduceNetworks (ReduceNetworks S) = ReduceNetworks S := by
  by_cases hlen : S.length ≤ 1
  · have hS : ReduceNetworks S = S := by unfold ReduceNetworks; rw [if_pos hlen]
    rw [hS]
    exact hS
  · obtain ⟨hsf, hwfo, hsorted, hfix, _⟩ := reduceNetworks_invariants hwf hlen
    set R := ReduceNetworks S with hR
    by_cases hlen2 : R.length ≤ 1
    · unfold ReduceNetworks
      rw [if_pos hlen2]
    · unfold ReduceNetworks
      rw [if_neg hlen2]
      simp only
      rw [sortNetworks_eq_of_sorted hsorted]
      rw [removeDuplicateNetworks_eq_self hsf.1]
      rw [removeSubsetNetworks_eq_self hsf]
      rw [reduceLoop_eq]
      rw [hfix]
      simp

/-- C4: For every list `S` of IPv4 prefixes (canonical `(ip, prefix_len)`
pairs, as produced by `net.ParseCIDR`), `iputil.ReduceNetworks` is
idempotent — `reduce(reduce(S)) = reduce(S)` — and preserves the covered
address space: an IPv4 address is covered by some prefix of `reduce(S)`
iff it is covered by some prefix of `S`. -/
theorem C4_reduce_idempotent_and_coverage (S : List IPNet)
    (hwf : ∀ p ∈ S, p.Wf) :
    ReduceNetworks (ReduceNetworks S) = ReduceNetworks S ∧
      ∀ a : Nat, a < ipUpper →
        (coveredBy S a ↔ coveredBy (ReduceNetworks S) a) :=
  ⟨reduceNetworks_idem hwf, fun a _ => (reduceNetworks_covers hwf a).symm⟩

theorem C4_reduce_idempotent_and_coverage_witness :
    (∀ p ∈ ([⟨167772160, 24⟩, ⟨167772416, 24⟩, ⟨167772672, 24⟩,
        ⟨167772928, 24⟩, ⟨167773184, 22⟩] : List IPNet), p.Wf) ∧
      ReduceNetworks (ReduceNetworks [⟨167772160, 24⟩, ⟨167772416, 24⟩,
          ⟨167772672, 24⟩, ⟨167772928, 24⟩, ⟨167773184, 22⟩]) =
        ReduceNetworks [⟨167772160, 24⟩, ⟨167772416, 24⟩, ⟨167772672, 24⟩,
          ⟨167772928, 24⟩, ⟨167773184, 22⟩] ∧
      (coveredBy [⟨167772160, 24⟩, ⟨167772416, 24⟩, ⟨167772672, 24⟩,
          ⟨167772928, 24⟩, ⟨167773184, 22⟩] 167772161 ↔
        coveredBy (ReduceNetworks [⟨167772160, 24⟩, ⟨167772416, 24⟩,
          ⟨167772672, 24⟩, ⟨167772928, 24⟩, ⟨167773184, 22⟩]) 167772161) := by
  have hwf : ∀ p ∈ ([⟨167772160, 24⟩, ⟨167772416, 24⟩, ⟨167772672, 24⟩,
      ⟨167772928, 24⟩, ⟨167773184, 22⟩] : List IPNet), p.Wf := by decide
  exact ⟨hwf, (C4_reduce_idempotent_and_coverage _ hwf).1,
    (C4_reduce_idempotent_and_coverage _ hwf).2 167772161 (by decide)⟩

/-! ## `pkg/gateway`: gateway list generation (`GenerateGateways`)

The Go function parses the textual start/end IPs with `net.ParseIP` and
converts them to 4-byte form; the model iterates directly over the parsed
IPv4 addresses (claims and scenarios quantify over the addresses). -/

structure GenGateway where
  ip : Nat
  url : String
deriving DecidableEq, Repr

inductive GenErr where
  | incrementOverflow
deriving DecidableEq, Repr

/-- One gateway record, with health URL built by
`fmt.Sprintf("%s://%s:%d%s", scheme, ip.String(), port, path)`. -/
def mkGateway (ip : Nat) (port : Int) (path scheme : String) : GenGateway :=
  ⟨ip, scheme ++ "://" ++ ipToString ip ++ ":" ++ toString port ++ path⟩

/-- The iteration of `gateway.GenerateGateways`: append a gateway for the
current address; stop when the end address is reached; increment (an
overflow aborts the whole function with an error, discarding the list);
stop when the incremented address has passed the end address. -/
def genLoop (endIp : Nat) (port : Int) (path scheme : String)
    (current : Nat) : Except GenErr (List GenGateway) :=
  if current = endIp then .ok [mkGateway current port path scheme]
  else
    match h : IncrementIP current with
    | .error _ => .error .incrementOverflow
    | .ok next =>
        if h2 : IsIPGreater next endIp = true then
          .ok [mkGateway current port path scheme]
        else
          (genLoop endIp port path scheme next).map
            (mkGateway current port path scheme :: ·)
termination_by endIp - current
decreasing_by
  simp only [IncrementIP] at h
  split at h
  · cases h
  · simp only [Except.ok.injEq] at h
    simp only [IsIPGreater, decide_eq_true_eq, Nat.not_lt] at h2
    omega

/-- `gateway.GenerateGateways` over the parsed 4-byte start/end IPs. -/
def GenerateGateways (startIp endIp : Nat) (port : Int)
    (path scheme : String) : Except GenErr (List GenGateway) :=
  genLoop endIp port path scheme startIp

theorem genLoop_eq_stop {endIp current : Nat} (port : Int) (path scheme : String)
    (hend : current = endIp) :
    genLoop endIp port path scheme current =
      .ok [mkGateway current port path scheme] := by
  rw [genLoop]
  rw [if_pos hend]

theorem genLoop_eq_overflow {endIp current : Nat} (port : Int)
    (path scheme : String) (hne : current ≠ endIp) (hmax : current = ipMax) :
    genLoop endIp port path scheme current = .error .incrementOverflow := by
  rw [genLoop]
  rw [if_neg hne]
  split
  · rfl
  · rename_i next heq
    simp only [IncrementIP, if_pos hmax] at heq
    cases heq

theorem genLoop_eq_break {endIp current : Nat} (port : Int)
    (path scheme : String) (hne : current ≠ endIp) (hmax : current ≠ ipMax)
    (hgt : endIp < current + 1) :
    genLoop endIp port path scheme current =
      .ok [mkGateway current port path scheme] := by
  rw [genLoop]
  rw [if_neg hne]
  split
  · rename_i heq
    simp only [IncrementIP, if_neg hmax] at heq
    cases heq
  · rename_i next heq
    simp only [IncrementIP, if_neg hmax, Except.ok.injEq] at heq
    subst heq
    rw [dif_pos (by simp [IsIPGreater]; omega)]

theorem genLoop_eq_step {endIp current : Nat} (port : Int)
    (path scheme : String) (hne : current ≠ endIp) (hmax : current ≠ ipMax)
    (hle : current + 1 ≤ endIp) :
    genLoop endIp port path scheme current =
      (genLoop endIp port path scheme (current + 1)).map
        (mkGateway current port path scheme :: ·) := by
  rw [genLoop]
  rw [if_neg hne]
  split
  · rename_i heq
    simp only [IncrementIP, if_neg hmax] at heq
    cases heq
  · rename_i next heq
    simp only [IncrementIP, if_neg hmax, Except.ok.injEq] at heq
    subst heq
    rw [dif_neg (by simp [IsIPGreater]; omega)]

theorem range_map_shift {α : Type} (f : Nat → α) (n : Nat) :
    List.map f (List.range (n + 1)) =
      f 0 :: List.map (fun i => f (i + 1)) (List.range n) := by
  rw [List.range_succ_eq_map]
  simp [List.map_map, Function.comp]

/-- The generation loop on a well-ordered range yields one gateway per
address of `[current, endIp]`, in order. -/
theorem genLoop_ok {endIp : Nat} (port : Int) (path scheme : String)
    (hend : endIp ≤ ipMax) :
    ∀ current, current ≤ endIp →
      genLoop endIp port path scheme current =
        .ok ((List.range (endIp - current + 1)).map
          (fun i => mkGateway (current + i) port path scheme)) := by
  suffices h : ∀ n current, endIp - current = n → current ≤ endIp →
      genLoop endIp port path scheme current =
        .ok ((List.range (endIp - current + 1)).map
          (fun i => mkGateway (current + i) port path scheme)) by
    exact fun current hc => h (endIp - current) current rfl hc
  intro n
  induction n using Nat.strong_induction_on with
  | _ n ih =>
      intro current hn hc
      by_cases hcend : current = endIp
      · rw [genLoop_eq_stop port path scheme hcend]
        subst hcend
        rw [show current - current + 1 = 1 from by omega]
        simp [List.range_succ]
      · have hlt : current < endIp := by omega
        have hmax : current ≠ ipMax := by omega
        rw [genLoop_eq_step port path scheme hcend hmax (by omega)]
        rw [ih (endIp - (current + 1)) (by omega) (current + 1) rfl (by omega)]
        simp only [Except.map]
        congr 1
        rw [range_map_shift (fun i => mkGateway (current + i) port path scheme)
          (endIp - current)]
        congr 1
        rw [show endIp - (current + 1) + 1 = endIp - current from by omega]
        apply List.map_congr_left
        intro i _
        have hadd : current + 1 + i = current + (i + 1) := by omega
        rw [hadd]

/-- C8 counterexample: for the range `255.255.255.255 .. 255.255.255.254`
the increment of the current address would overflow, and the code returns
an *error* with no gateways — not, as the claim states, the gateways
built so far. -/
theorem C8_counterexample :
    GenerateGateways 4294967295 4294967294 80 "/" "http" =
        .error .incrementOverflow ∧
      ¬ ∃ gws, GenerateGateways 4294967295 4294967294 80 "/" "http" = .ok gws := by
  have h : GenerateGateways 4294967295 4294967294 80 "/" "http" =
      .error .incrementOverflow :=
    genLoop_eq_overflow 80 "/" "http" (by norm_num) (by norm_num [ipMax])
  exact ⟨h, by rw [h]; rintro ⟨gws, hg⟩; cases hg⟩

/-- C8 (amended): gateway-list construction iterates `[StartIP, EndIP]`
inclusive, one gateway per address with URL `<scheme>://<ip>:<port><path>`
(for `192.168.1.1..192.168.1.3`, port 80, path `/`, scheme `http` exactly
the three gateways with URLs `http://192.168.1.{1,2,3}:80/`); when
`EndIP < StartIP < 255.255.255.255` it stops early after the start
gateway; but when an increment would overflow past `255.255.255.255`
(`EndIP < StartIP = 255.255.255.255`) it *fails with an error*, returning
no gateways. -/
theorem C8_generate_gateways (startIp endIp : Nat) (port : Int)
    (path scheme : String) (hstart : startIp ≤ ipMax) (hend : endIp ≤ ipMax) :
    (startIp ≤ endIp →
      GenerateGateways startIp endIp port path scheme =
        .ok ((List.range (endIp - startIp + 1)).map
          (fun i => mkGateway (startIp + i) port path scheme))) ∧
    (endIp < startIp → startIp < ipMax →
      GenerateGateways startIp endIp port path scheme =
        .ok [mkGateway startIp port path scheme]) ∧
    (endIp < startIp → startIp = ipMax →
      GenerateGateways startIp endIp port path scheme =
        .error .incrementOverflow) ∧
    GenerateGateways 3232235777 3232235779 80 "/" "http" =
      .ok [⟨3232235777, "http://192.168.1.1:80/"⟩,
        ⟨3232235778, "http://192.168.1.2:80/"⟩,
        ⟨3232235779, "http://192.168.1.3:80/"⟩] := by
  refine ⟨?_, ?_, ?_, ?_⟩
  · intro hle
    exact genLoop_ok port path scheme hend startIp hle
  · intro hlt hmax
    exact genLoop_eq_break port path scheme (by omega) (by omega) (by omega)
  · intro hlt hmax
    exact genLoop_eq_overflow port path scheme (by omega) hmax
  · have h := @genLoop_ok 3232235779 80 "/" "http"
      (by norm_num [ipMax]) 3232235777 (by norm_num)
    rw [GenerateGateways, h]
    rfl

theorem C8_generate_gateways_witness :
    (3232235777 ≤ ipMax ∧ 3232235779 ≤ ipMax) ∧
      GenerateGateways 3232235777 3232235779 80 "/" "http" =
        .ok [⟨3232235777, "http://192.168.1.1:80/"⟩,
          ⟨3232235778, "http://192.168.1.2:80/"⟩,
          ⟨3232235779, "http://192.168.1.3:80/"⟩] :=
  ⟨⟨by norm_num [ipMax], by norm_num [ipMax]⟩,
    (C8_generate_gateways 3232235777 3232235779 80 "/" "http"
      (by norm_num [ipMax]) (by norm_num [ipMax])).2.2.2⟩

/-! ## `pkg/gateway`: the public-IP fetch pipeline (`FetchPublicIP`) -/

/-- A decoded JSON value as far as the fetcher inspects it: the Go type
assertion `value.(string)` distinguishes strings from everything else. -/
inductive GoJson where
  | str (s : String)
  | num (n : Int)
  | other
deriving DecidableEq, Repr

/-- A `net.ParseIP` result as far as the fetcher inspects it: a 4-byte
IPv4 value (`To4() != nil`) or a 16-byte IPv6 value (`To4() == nil`). -/
inductive GoIP where
  | v4 (ip : Nat)
  | v6
deriving DecidableEq, Repr

def dotChar : Char := Char.ofNat 46

def colonChar : Char := Char.ofNat 58

/-- One decimal field of a dotted quad: 1–3 digits, value ≤ 255, no
leading zero (as `net.ParseIP` enforces). -/
def parseIPv4Field (cs : List Char) : Option Nat :=
  if cs.length = 0 ∨ 3 < cs.length then none
  else if cs.any (fun c => decide (c.toNat < 48 ∨ 57 < c.toNat)) then none
  else if 1 < cs.length ∧ cs.head? = some (Char.ofNat 48) then none
  else
    let v := cs.foldl (fun a c => a * 10 + (c.toNat - 48)) 0
    if v ≤ 255 then some v else none

def parseDotted (s : String) : Option Nat :=
  match s.data.splitOn dotChar with
  | [f1, f2, f3, f4] =>
      match parseIPv4Field f1, parseIPv4Field f2, parseIPv4Field f3,
          parseIPv4Field f4 with
      | some a, some b, some c, some d =>
          some (((a * 256 + b) * 256 + c) * 256 + d)
      | _, _, _, _ => none
  | _ => none

def firstSep : List Char → Option Char
  | [] => none
  | c :: cs => if c = dotChar ∨ c = colonChar then some c else firstSep cs

/-- `net.ParseIP`: the first separator character selects the v4 or v6
grammar.  Strings whose first separator is a colon are modelled as
16-byte IPv6 results (their detailed v6 syntax, including v4-mapped
forms, is not inspected by any claim). -/
def goParseIP (s : String) : Option GoIP :=
  match firstSep s.data with
  | some c => if c = dotChar then (parseDotted s).map GoIP.v4 else some .v6
  | none => none

/-- The gateway record fields touched by `FetchPublicIP`. -/
structure Gateway where
  ip : Nat
  isActive : Bool
  publicIP : String
deriving DecidableEq, Repr

inductive FetchErr where
  | notActive
  | buildRequest
  | readBody
  | transport
  | upstreamStatus (code : Int)
  | noIPField
  | invalidIP
  | notIPv4
deriving DecidableEq, Repr

/-- The recognized JSON keys, in order of preference. -/
def ipAddressKeys : List String := ["public_ip", "ip_address", "ip_addr", "ip"]

def lookupJson (m : List (String × GoJson)) (k : String) : Option GoJson :=
  (m.find? (fun e => decide (e.1 = k))).map (fun e => e.2)

/-- The key-selection loop of `FetchPublicIP`: `publicIP` starts empty
and the loop breaks at the first present key whose value is a non-empty
string; keys that are absent, non-strings, or empty strings are passed
over. -/
def pickIpField (m : List (String × GoJson)) : List String → String
  | [] => ""
  | k :: ks =>
      match lookupJson m k with
      | some (.str s) => if s ≠ "" then s else pickIpField m ks
      | _ => pickIpField m ks

/-- `strings.TrimSpace` (the whitespace occurring in the fetch bodies is
ASCII: space, tab, newline, vertical tab, form feed, carriage return). -/
def isSpaceChar (c : Char) : Bool :=
  decide (c.toNat = 32 ∨ (9 ≤ c.toNat ∧ c.toNat ≤ 13))

def trimSpace (s : String) : String :=
  ⟨((s.data.dropWhile isSpaceChar).reverse.dropWhile isSpaceChar).reverse⟩

/-- The tail of `FetchPublicIP`: trim whitespace, `net.ParseIP`
(failure ⇒ invalid-IP error), require IPv4 via `To4` (failure ⇒
not-IPv4 error), then store the trimmed string into `g.PublicIP`. -/
def validateAndStoreIP (g : Gateway) (raw : String) : Gateway × Option FetchErr :=
  let publicIP := trimSpace raw
  match goParseIP publicIP with
  | none => (g, some .invalidIP)
  | some .v6 => (g, some .notIPv4)
  | some (.v4 _) => ({ g with publicIP := publicIP }, none)

theorem validateAndStoreIP_spec (g : Gateway) (raw : String) :
    validateAndStoreIP g raw = (g, some .invalidIP) ∨
      validateAndStoreIP g raw = (g, some .notIPv4) ∨
      validateAndStoreIP g raw = ({ g with publicIP := trimSpace raw }, none) := by
  unfold validateAndStoreIP
  cases h : goParseIP (trimSpace raw) with
  | none => simp [h]
  | some ip =>
      cases ip with
      | v4 n => simp [h]
      | v6 => simp [h]

/-- `gateway.FetchPublicIP` from the point where the HTTP exchange is
abstracted: `buildReqOk` models `http.NewRequestWithContext` succeeding,
`transportOk` models `client.Do` succeeding (on failure the response is
nil, so no body is read), `readOk` models `io.ReadAll` succeeding,
`status` is the response status code, `jsonObj?` the result of
`json.Unmarshal` of the body into `map[string]any` (`none` = body is not
a JSON object/null), and `body` the raw body text.  The pair returned is
the (possibly updated) gateway record and the error, mirroring the
mutation of the receiver and the returned `error`. -/
def FetchPublicIP (g : Gateway) (buildReqOk transportOk readOk : Bool)
    (status : Int) (jsonObj? : Option (List (String × GoJson)))
    (body : String) : Gateway × Option FetchErr :=
  if g.isActive = false then (g, some .notActive)
  else if buildReqOk = false then (g, some .buildRequest)
  else if transportOk = true ∧ readOk = false then (g, some .readBody)
  else if transportOk = false then (g, some .transport)
  else if status ≠ 200 then (g, some (.upstreamStatus status))
  else
    match jsonObj? with
    | some m =>
        let publicIP := pickIpField m ipAddressKeys
        if publicIP = "" then (g, some .noIPField)
        else validateAndStoreIP g publicIP
    | none => validateAndStoreIP g body

/-- C6 counterexample: the HTTP status 201 lies in the 2xx range
`[200, 299]`, yet the fetch fails with the upstream-status error — the
code accepts only exactly `http.StatusOK` (200), so the claimed "does
not fail on the status for every 2xx response" is false. -/
theorem C6_counterexample :
    (200 : Int) ≤ 201 ∧ (201 : Int) ≤ 299 ∧
      FetchPublicIP ⟨3232235777, true, ""⟩ true true true 201 none "1.2.3.4" =
        (⟨3232235777, true, ""⟩, some (.upstreamStatus 201)) :=
  ⟨by norm_num, by norm_num, rfl⟩

/-- C6 (amended): with an active gateway and successful request
construction, transport and body read, the public-IP fetch fails with an
upstream-status error exactly for HTTP statuses different from 200
(carrying that status) — 2xx statuses other than 200 are rejected too —
and for status 200 it never raises a status error and proceeds to parse
the body (JSON key selection when the body unmarshals as a JSON object,
plain-text validation otherwise). -/
theorem C6_upstream_status (g : Gateway) (status : Int)
    (jsonObj? : Option (List (String × GoJson))) (body : String)
    (hactive : g.isActive = true) :
    (∀ c, (FetchPublicIP g true true true status jsonObj? body).2 =
        some (.upstreamStatus c) ↔ status ≠ 200 ∧ c = status) ∧
    (status = 200 →
      FetchPublicIP g true true true status jsonObj? body =
        match jsonObj? with
        | some m =>
            if pickIpField m ipAddressKeys = "" then (g, some .noIPField)
            else validateAndStoreIP g (pickIpField m ipAddressKeys)
        | none => validateAndStoreIP g body) := by
  have hred : FetchPublicIP g true true true status jsonObj? body =
      if status = 200 then
        (match jsonObj? with
         | some m =>
             if pickIpField m ipAddressKeys = "" then (g, some FetchErr.noIPField)
             else validateAndStoreIP g (pickIpField m ipAddressKeys)
         | none => validateAndStoreIP g body)
      else (g, some (.upstreamStatus status)) := by
    unfold FetchPublicIP
    rw [hactive]
    by_cases hst : status = 200
    · rw [if_pos hst]
      simp [hst]
    · rw [if_neg hst]
      simp [hst]
  constructor
  · intro c
    rw [hred]
    by_cases hst : status = 200
    · rw [if_pos hst]
      subst hst
      simp only [ne_eq, not_true_eq_false, false_and, iff_false]
      cases jsonObj? with
      | some m =>
          simp only
          by_cases hc : pickIpField m ipAddressKeys = ""
          · rw [if_pos hc]; simp
          · rw [if_neg hc]
            rcases validateAndStoreIP_spec g (pickIpField m ipAddressKeys) with
              hsp | hsp | hsp <;> rw [hsp] <;> simp
      | none =>
          simp only
          rcases validateAndStoreIP_spec g body with hsp | hsp | hsp <;>
            rw [hsp] <;> simp
    · rw [if_neg hst]
      simp only [Option.some.injEq, FetchErr.upstreamStatus.injEq]
      constructor
      · intro h; exact ⟨hst, h.symm⟩
      · rintro ⟨_, rfl⟩; rfl
  · intro hst
    rw [hred, if_pos hst]

/-- Spec-side declarative selector (spec §4.G): the value of the first
present key among `public_ip`, `ip_address`, `ip_addr`, `ip` whose value
is a non-empty string. -/
def nonEmptyStrVal : Option GoJson → Option String
  | some (.str s) => if s ≠ "" then some s else none
  | _ => none

def firstIpValue (m : List (String × GoJson)) : Option String :=
  ipAddressKeys.findSome? (fun k => nonEmptyStrVal (lookupJson m k))

/-- The break-out-of-the-loop selection equals the declarative
first-qualifying-key selection (with `""` encoding "none found"). -/
theorem pickIpField_eq (m : List (String × GoJson)) :
    ∀ keys : List String,
      pickIpField m keys =
        (keys.findSome? (fun k => nonEmptyStrVal (lookupJson m k))).getD "" := by
  intro keys
  induction keys with
  | nil => rfl
  | cons k ks ih =>
      rw [List.findSome?_cons]
      cases h : lookupJson m k with
      | none =>
          simp only [pickIpField, h]
          exact ih
      | some v =>
          cases v with
          | str s =>
              by_cases hs : s = ""
              · subst hs
                simp only [pickIpField, h]
                rw [if_neg (fun hq => hq rfl)]
                exact ih
              · simp only [pickIpField, h]
                rw [if_pos hs]
                rw [show nonEmptyStrVal (some (GoJson.str s)) = some s from by
                  simp [nonEmptyStrVal, hs]]
                rfl
          | num n =>
              simp only [pickIpField, h]
              exact ih
          | other =>
              simp only [pickIpField, h]
              exact ih

/-- C7: when the body parses as a JSON object, the fetch selects the
value of the first key among `public_ip`, `ip_address`, `ip_addr`, `ip`
whose value is a non-empty string (a present key whose value is not a
string or is the empty string is skipped in favour of later keys), and
errors with the no-IP-field error exactly when no such key exists; in
particular `{"public_ip": 12345, "ip_address": "198.51.100.99"}` at
status 200 yields `198.51.100.99`, and `{"public_ip": ""}` at status 200
yields the no-IP-field error. -/
theorem C7_json_key_selection (g : Gateway)
    (m : List (String × GoJson)) (hactive : g.isActive = true) :
    ((FetchPublicIP g true true true 200 (some m) "").2 = some .noIPField ↔
      firstIpValue m = none) ∧
    (∀ s, firstIpValue m = some s →
      FetchPublicIP g true true true 200 (some m) "" = validateAndStoreIP g s) ∧
    FetchPublicIP g true true true 200
        (some [("public_ip", .num 12345), ("ip_address", .str "198.51.100.99")])
        "" = ({ g with publicIP := "198.51.100.99" }, none) ∧
    FetchPublicIP g true true true 200 (some [("public_ip", .str "")]) "" =
      (g, some .noIPField) := by
  have hne0 : ∀ (o : Option GoJson) (s : String), nonEmptyStrVal o = some s → s ≠ "" := by
    intro o s h
    unfold nonEmptyStrVal at h
    split at h
    · split at h
      · rename_i hc
        injection h with hh
        subst hh
        exact hc
      · cases h
    · cases h
  have hpick : ∀ m' : List (String × GoJson),
      pickIpField m' ipAddressKeys = (firstIpValue m').getD "" := by
    intro m'
    rw [pickIpField_eq m' ipAddressKeys]
    rfl
  have hne : ∀ (m' : List (String × GoJson)) (s : String),
      firstIpValue m' = some s → s ≠ "" := by
    intro m' s h
    unfold firstIpValue at h
    obtain ⟨k, _, hk⟩ := List.exists_of_findSome?_eq_some h
    exact hne0 _ s hk
  have hfetch : ∀ (m' : List (String × GoJson)),
      FetchPublicIP g true true true 200 (some m') "" =
        (if pickIpField m' ipAddressKeys = "" then (g, some FetchErr.noIPField)
         else validateAndStoreIP g (pickIpField m' ipAddressKeys)) := by
    intro m'
    unfold FetchPublicIP
    rw [hactive]
    simp
  refine ⟨?_, ?_, ?_, ?_⟩
  · rw [hfetch m]
    cases hf : firstIpValue m with
    | none => simp [hpick m, hf]
    | some s =>
        have hs := hne m s hf
        rw [hpick m, hf]
        simp only [Option.getD_some]
        rw [if_neg hs]
        constructor
        · intro h
          exfalso
          rcases validateAndStoreIP_spec g s with hsp | hsp | hsp <;>
            rw [hsp] at h <;> simp at h
        · intro h; cases h
  · intro s hs
    rw [hfetch m, hpick m, hs]
    simp only [Option.getD_some]
    rw [if_neg (hne m s hs)]
  · rw [hfetch]
    rfl
  · rw [hfetch]
    rfl

theorem C7_json_key_selection_witness :
    (⟨3232235777, true, ""⟩ : Gateway).isActive = true ∧
      FetchPublicIP ⟨3232235777, true, ""⟩ true true true 200
          (some [("public_ip", .num 12345), ("ip_address", .str "198.51.100.99")])
          "" = (⟨3232235777, true, "198.51.100.99"⟩, none) ∧
      FetchPublicIP ⟨3232235777, true, ""⟩ true true true 200
          (some [("public_ip", .str "")]) "" =
        (⟨3232235777, true, ""⟩, some .noIPField) :=
  ⟨rfl,
    (C7_json_key_selection ⟨3232235777, true, ""⟩
      [("public_ip", .num 12345), ("ip_address", .str "198.51.100.99")] rfl).2.2.1,
    (C7_json_key_selection ⟨3232235777, true, ""⟩ [("public_ip", .str "")] rfl).2.2.2⟩

theorem C6_upstream_status_witness :
    (⟨3232235777, true, ""⟩ : Gateway).isActive = true ∧
      ((FetchPublicIP ⟨3232235777, true, ""⟩ true true true 201 none "1.2.3.4").2 =
          some (.upstreamStatus 201) ↔ (201 : Int) ≠ 200 ∧ (201 : Int) = 201) :=
  ⟨rfl, (C6_upstream_status ⟨3232235777, true, ""⟩ 201 none "1.2.3.4" rfl).1 201⟩

/-- C10: on every error path of the public-IP fetch — inactive gateway,
request construction or transport failure, body-read failure, rejected
HTTP status, no recognized IP field in a JSON body, unparseable IP, or
non-IPv4 IP — the gateway record (in particular its `PublicIP` field) is
returned unchanged; it is updated only when every validation step
succeeds. -/
theorem C10_fetch_frame (g : Gateway) (buildReqOk transportOk readOk : Bool)
    (status : Int) (jsonObj? : Option (List (String × GoJson))) (body : String)
    (e : FetchErr)
    (he : (FetchPublicIP g buildReqOk transportOk readOk status jsonObj? body).2 = some e) :
    (FetchPublicIP g buildReqOk transportOk readOk status jsonObj? body).1 = g := by
  have hval : ∀ raw, (validateAndStoreIP g raw).2 = some e →
      (validateAndStoreIP g raw).1 = g := by
    intro raw he'
    rcases validateAndStoreIP_spec g raw with hsp | hsp | hsp <;>
      rw [hsp] at he' ⊢ <;> first | rfl | simp at he'
  unfold FetchPublicIP at he ⊢
  split_ifs at he ⊢ <;> try rfl
  cases jsonObj? with
  | some m =>
      simp only at he ⊢
      by_cases hc : pickIpField m ipAddressKeys = ""
      · rw [if_pos hc]
      · rw [if_neg hc]
        rw [if_neg hc] at he
        exact hval _ he
  | none =>
      simp only at he ⊢
      exact hval _ he

theorem C10_fetch_frame_witness :
    (FetchPublicIP ⟨3232235777, false, ""⟩ true true true 200 none "1.2.3.4").2 =
        some .notActive ∧
      (FetchPublicIP ⟨3232235777, false, ""⟩ true true true 200 none "1.2.3.4").1 =
        ⟨3232235777, false, ""⟩ :=
  ⟨rfl, C10_fetch_frame ⟨3232235777, false, ""⟩ true true true 200 none "1.2.3.4"
    .notActive rfl⟩

/-! ## `pkg/ddns`: the schedule/coalescing logic (`ScheduleUpdate`) -/

/-- The updater state touched by `ScheduleUpdate`: whether a DDNS
provider is configured (`u.provider != nil`) and the currently scheduled
next-active gateway snapshot (`u.nextActiveGateways`). -/
structure UpdaterState where
  providerPresent : Bool
  nextActiveGateways : List Gateway
deriving DecidableEq, Repr

/-- The sorted list of IP string forms of a gateway list
(`slices.Sort` of `gw.IP.String()`; `slices.Compare == 0` on the two
sorted lists is exactly list equality). -/
def sortedIPStrings (gws : List Gateway) : List String :=
  sortBy goStrLt (gws.map (fun g => ipToString g.ip))

/-- `ddns.ScheduleUpdate`, returning the new state and whether a signal
was sent.  `receiverReady` models whether the run loop is currently
blocked receiving on the (unbuffered) update channel — the non-blocking
send succeeds only in that case, otherwise the `default` branch drops
the signal. -/
def ScheduleUpdate (u : UpdaterState) (activeGateways : List Gateway)
    (receiverReady : Bool) : UpdaterState × Bool :=
  if u.providerPresent = false then (u, false)
  else if sortedIPStrings activeGateways = sortedIPStrings u.nextActiveGateways then
    (u, false)
  else
    ({ u with nextActiveGateways := activeGateways }, receiverReady)

/-- C9: scheduling a gateway set whose sorted IP list equals that of the
previously scheduled set is a no-op — no snapshot swap and no send on
the signal channel — so `schedule(A)` immediately followed by
`schedule(A)` signals the DDNS task at most once. -/
theorem C9_schedule_coalescing (u : UpdaterState) (A : List Gateway)
    (r1 r2 : Bool) :
    (sortedIPStrings A = sortedIPStrings u.nextActiveGateways →
      ScheduleUpdate u A r1 = (u, false)) ∧
    (ScheduleUpdate u A r1).2.toNat +
        (ScheduleUpdate (ScheduleUpdate u A r1).1 A r2).2.toNat ≤ 1 := by
  constructor
  · intro h
    unfold ScheduleUpdate
    by_cases hp : u.providerPresent = false
    · rw [if_pos hp]
    · rw [if_neg hp, if_pos h]
  · by_cases hp : u.providerPresent = false
    · have h1 : ScheduleUpdate u A r1 = (u, false) := by
        unfold ScheduleUpdate
        rw [if_pos hp]
      rw [h1]
      have h2 : ScheduleUpdate u A r2 = (u, false) := by
        unfold ScheduleUpdate
        rw [if_pos hp]
      simp only
      rw [h2]
      simp
    · by_cases heq : sortedIPStrings A = sortedIPStrings u.nextActiveGateways
      · have h1 : ScheduleUpdate u A r1 = (u, false) := by
          unfold ScheduleUpdate
          rw [if_neg hp, if_pos heq]
        rw [h1]
        simp only [Bool.toNat_false, Nat.zero_add]
        cases (ScheduleUpdate u A r2).2 <;> simp
      · have h1 : ScheduleUpdate u A r1 =
            ({ u with nextActiveGateways := A }, r1) := by
          unfold ScheduleUpdate
          rw [if_neg hp, if_neg heq]
        rw [h1]
        have h2 : ScheduleUpdate { u with nextActiveGateways := A } A r2 =
            ({ u with nextActiveGateways := A }, false) := by
          unfold ScheduleUpdate
          rw [if_neg (by simpa using hp)]
          rw [if_pos rfl]
        simp only
        rw [h2]
        cases r1 <;> simp

theorem C9_schedule_coalescing_witness :
    sortedIPStrings [⟨3232235777, true, ""⟩, ⟨3232235779, true, ""⟩] =
        sortedIPStrings
          (⟨true, [⟨3232235779, true, ""⟩, ⟨3232235777, true, ""⟩]⟩ :
            UpdaterState).nextActiveGateways ∧
      ScheduleUpdate ⟨true, [⟨3232235779, true, ""⟩, ⟨3232235777, true, ""⟩]⟩
          [⟨3232235777, true, ""⟩, ⟨3232235779, true, ""⟩] true =
        (⟨true, [⟨3232235779, true, ""⟩, ⟨3232235777, true, ""⟩]⟩, false) := by
  have h : sortedIPStrings [⟨3232235777, true, ""⟩, ⟨3232235779, true, ""⟩] =
      sortedIPStrings
        (⟨true, [⟨3232235779, true, ""⟩, ⟨3232235777, true, ""⟩]⟩ :
          UpdaterState).nextActiveGateways := by decide
  exact ⟨h, (C9_schedule_coalescing
    ⟨true, [⟨3232235779, true, ""⟩, ⟨3232235777, true, ""⟩]⟩
    [⟨3232235777, true, ""⟩, ⟨3232235779, true, ""⟩] true true).1 h⟩

/-! ## `pkg/routes`: the netlink route-plane installer

The kernel state reachable through the netlink handle is a rule list and
a route list; netlink operation failures are injectable through a
`FailSpec`, standing for the errors the kernel may return. -/

/-- A netlink rule as the installer uses it.  `netlink.NewRule()` leaves
`Priority` and `Goto` at `-1` (unset) and `Table` at `0` (unset). -/
structure Rule where
  priority : Int
  table : Int
  dst : Option IPNet
  goTo : Int
deriving DecidableEq, Repr

def newRule : Rule := { priority := -1, table := 0, dst := none, goTo := -1 }

/-- A netlink route as the installer uses it: destination prefix, table
id, and the multipath nexthop gateway IPs. -/
structure Route where
  dst : Option IPNet
  table : Int
  nexthops : List Nat
deriving DecidableEq, Repr

structure NlState where
  rules : List Rule
  routes : List Route
  closed : Bool
deriving DecidableEq, Repr

/-- Injectable kernel-operation failures. -/
structure FailSpec where
  ruleListFails : Bool
  ruleAddFails : Rule → Bool
  ruleDelFails : Rule → Bool
  routeListFails : Bool
  routeDelFails : Route → Bool

def noFail : FailSpec :=
  ⟨false, fun _ => false, fun _ => false, false, fun _ => false⟩

inductive NlErr where
  | ruleList
  | ruleAdd
  | ruleDel
  | routeList
  | routeDel
  | invalidTableID
  | invalidRulePref
deriving DecidableEq, Repr

/-- The manager state computed by `excludeNetworks`. -/
structure NetlinkManager where
  gatewayTableID : Int
  fallthroughTableID : Int
  firstExcludeRulePreference : Int
  fallthroughTableRulePreference : Int
  gatewayTableRulePreference : Int
  excludeNets : List IPNet
deriving DecidableEq, Repr

def hRuleAdd (fs : FailSpec) (r : Rule) (st : NlState) : NlState × Option NlErr :=
  if fs.ruleAddFails r then (st, some .ruleAdd)
  else ({ st with rules := st.rules ++ [r] }, none)

def hRuleDel (fs : FailSpec) (r : Rule) (st : NlState) : NlState × Option NlErr :=
  if fs.ruleDelFails r then (st, some .ruleDel)
  else ({ st with rules := st.rules.erase r }, none)

/-- The Go code turns the listed rules into a map keyed by priority
(later entries overwrite earlier ones, as Go map insertion does). -/
def lookupByPriority (rules : List Rule) (p : Int) : Option Rule :=
  rules.reverse.find? (fun r => decide (r.priority = p))

/-- Delete the rule found (in the initial listing) at one priority,
skipping when none is present. -/
def delAtPriority (fs : FailSpec) (rules0 : List Rule) (p : Int)
    (st : NlState) : NlState × Option NlErr :=
  match lookupByPriority rules0 p with
  | none => (st, none)
  | some r => hRuleDel fs r st

/-- Delete the rules at the given priorities in order, aborting at the
first failure. -/
def delList (fs : FailSpec) (rules0 : List Rule) :
    List Int → NlState → NlState × Option NlErr
  | [], st => (st, none)
  | p :: rest, st =>
      match delAtPriority fs rules0 p st with
      | (st2, none) => delList fs rules0 rest st2
      | (st2, some e) => (st2, some e)

/-- The priorities owned by the installer, in the deletion order of
`removeRules`: gateway rule, exclude rules, fallthrough rule. -/
def managedPriorities (m : NetlinkManager) : List Int :=
  [m.gatewayTableRulePreference] ++
    (List.range m.excludeNets.length).map
      (fun (i : Nat) => m.firstExcludeRulePreference + (i : Int)) ++
    [m.fallthroughTableRulePreference]

/-- `routes.removeRules`: list the rules, then delete — in this order —
the gateway rule, each exclude rule, and the fallthrough rule, skipping
priorities with no rule present and aborting at the first failure. -/
def removeRules (m : NetlinkManager) (fs : FailSpec) (st : NlState) :
    NlState × Option NlErr :=
  if fs.ruleListFails then (st, some .ruleList)
  else delList fs st.rules (managedPriorities m) st

/-- Fallthrough rule: `newRule` with the fallthrough table and priority set. -/
def mkFallthroughRule (m : NetlinkManager) : Rule :=
  ⟨m.fallthroughTableRulePreference, m.fallthroughTableID, none, -1⟩

/-- Exclude rule `i`: `newRule` with the destination, a goto targeting the
fallthrough rule's priority, and priority `firstExcludeRulePreference + i`. -/
def mkExcludeRule (m : NetlinkManager) (i : Nat) (net : IPNet) : Rule :=
  ⟨m.firstExcludeRulePreference + i, 0, some net, m.fallthroughTableRulePreference⟩

/-- Gateway rule: `newRule` with the gateway table and priority set. -/
def mkGatewayRule (m : NetlinkManager) : Rule :=
  ⟨m.gatewayTableRulePreference, m.gatewayTableID, none, -1⟩

/-- The rules `addRules` installs, in installation order: the
fallthrough rule first, then the exclude rules, then the gateway rule. -/
def managedRules (m : NetlinkManager) : List Rule :=
  [mkFallthroughRule m] ++
    m.excludeNets.enum.map (fun e => mkExcludeRule m e.1 e.2) ++
    [mkGatewayRule m]

/-- Add the given rules in order, aborting at the first failure. -/
def addList (fs : FailSpec) : List Rule → NlState → NlState × Option NlErr
  | [], st => (st, none)
  | r :: rest, st =>
      match hRuleAdd fs r st with
      | (st2, none) => addList fs rest st2
      | (st2, some e) => (st2, some e)

/-- `routes.addRules`: remove any pre-existing rules at the managed
priorities, then install the managed rules. -/
def addRules (m : NetlinkManager) (fs : FailSpec) (st : NlState) :
    NlState × Option NlErr :=
  match removeRules m fs st with
  | (st2, some e) => (st2, some e)
  | (st2, none) => addList fs (managedRules m) st2

/-- `routes.excludeNetworks` (the body of `NewNetlinkManager`): validate
the table id against `maxTableID = 255 - 1`, reduce the exclude set,
validate the first rule preference, derive the rule preferences, then
install the rules; on an installation failure run a best-effort cleanup
(whose own error is only logged) and surface the error. -/
def excludeNetworks (netsToExclude : List IPNet)
    (firstTableID firstRulePreference : Int) (fs : FailSpec) (st : NlState) :
    NlState × Except NlErr NetlinkManager :=
  if firstTableID < 1 ∨ firstTableID > 255 - 1 then (st, .error .invalidTableID)
  else
    let reduced := ReduceNetworks netsToExclude
    let requiredRuleCount : Int := reduced.length + 2
    if firstRulePreference < 1 ∨
        firstRulePreference > 32766 - requiredRuleCount + 1 then
      (st, .error .invalidRulePref)
    else
      let m : NetlinkManager :=
        { gatewayTableID := firstTableID
          fallthroughTableID := firstTableID + 1
          firstExcludeRulePreference := firstRulePreference
          fallthroughTableRulePreference := firstRulePreference + reduced.length + 1
          gatewayTableRulePreference := firstRulePreference + reduced.length + 1 - 1
          excludeNets := reduced }
      match addRules m fs st with
      | (st2, none) => (st2, .ok m)
      | (st2, some e) =>
          let cleaned := removeRules m fs st2
          (cleaned.1, .error e)

/-- The deletion callback loop of `RouteListFilteredIter`: delete each
listed route in order; the first deletion failure stops the iteration
(the callback returns `false`). -/
def removeRoutesLoop (fs : FailSpec) : List Route → NlState → NlState × Option NlErr
  | [], st => (st, none)
  | r :: rest, st =>
      if fs.routeDelFails r then (st, some .routeDel)
      else removeRoutesLoop fs rest { st with routes := st.routes.erase r }

/-- `routes.removeRoutes` (used by `Close`): early return when the
gateway table id is zero; otherwise iterate the gateway table's routes,
deleting each; the listing error and the first deletion error are
joined. -/
def removeRoutes (m : NetlinkManager) (fs : FailSpec) (st : NlState) :
    NlState × List NlErr :=
  if m.gatewayTableID = 0 then (st, [])
  else if fs.routeListFails then (st, [.routeList])
  else
    let res := removeRoutesLoop fs
      (st.routes.filter (fun r => decide (r.table = m.gatewayTableID))) st
    (res.1, res.2.toList)

/-- `routes.Close`: remove the gateway-table routes, then the managed
rules, then release the netlink handle; the phase errors are joined
(`errors.Join`) and each later phase runs regardless of earlier phase
failures. -/
def closeManager (m : NetlinkManager) (fs : FailSpec) (st : NlState) :
    NlState × List NlErr :=
  let resRoutes := removeRoutes m fs st
  let resRules := removeRules m fs resRoutes.1
  ({ resRules.1 with closed := true }, resRoutes.2 ++ resRules.2.toList)

/-- The comparator of `UpdateDefaultRoute`'s `sort.Slice`: gateway IPs
ordered lexicographically by their string forms. -/
def ipStrLess (a b : Nat) : Bool := goStrLt (ipToString a) (ipToString b)

/-- The route identity `RouteReplace` upserts on: same table, same
destination. -/
def routeKey (m : NetlinkManager) (d : IPNet) (q : Route) : Bool :=
  decide (q.table = m.gatewayTableID) && decide (q.dst = some d)

/-- Modelled from the spec: the reconciliation
`update(managed_destinations, active_gateways)` — the monitor calls
`routeManager.UpdateRoutes(gm.config.Routes, activeGatewayAddresses)`,
but the implementation of `UpdateRoutes` is not present under `src/`
(only `UpdateDefaultRoute`, its single-destination counterpart, is).
Modelled from spec §4.E following the per-destination pattern of
`UpdateDefaultRoute`/`replaceDefaultRouteECMP` (src/pkg/routes/routes.go):
with no active gateways, delete every route of the gateway table;
otherwise sort the gateways lexicographically by string form, upsert
(`RouteReplace`) one route per managed destination carrying the sorted
multipath nexthops, and finally delete stale gateway-table routes whose
destination is no longer managed.  The claim concerns a successful
update, so the kernel operations are the pure state updates. -/
def UpdateRoutes (m : NetlinkManager) (dests : List IPNet) (gws : List Nat)
    (routes : List Route) : List Route :=
  if gws = [] then
    routes.filter (fun r => decide (r.table ≠ m.gatewayTableID))
  else
    let sorted := sortBy ipStrLess gws
    let replaced := dests.foldl (fun acc d =>
      acc.filter (fun q => !(routeKey m d q)) ++
        [{ dst := some d, table := m.gatewayTableID, nexthops := sorted }]) routes
    replaced.filter (fun r =>
      decide (r.table ≠ m.gatewayTableID) ||
        dests.any (fun d => decide (r.dst = some d)))

/-! ### Which errors each rule operation can produce -/

theorem hRuleDel_err (fs : FailSpec) (r : Rule) (st : NlState) :
    (hRuleDel fs r st).2 = none ∨ (hRuleDel fs r st).2 = some NlErr.ruleDel := by
  unfold hRuleDel
  split
  · exact Or.inr rfl
  · exact Or.inl rfl

theorem delAtPriority_err (fs : FailSpec) (rules0 : List Rule) (p : Int)
    (st : NlState) :
    (delAtPriority fs rules0 p st).2 = none ∨
      (delAtPriority fs rules0 p st).2 = some NlErr.ruleDel := by
  unfold delAtPriority
  cases lookupByPriority rules0 p with
  | none => exact Or.inl rfl
  | some r => exact hRuleDel_err fs r st

theorem delList_err (fs : FailSpec) (rules0 : List Rule) :
    ∀ (ps : List Int) (st : NlState), (delList fs rules0 ps st).2 = none ∨
      (delList fs rules0 ps st).2 = some NlErr.ruleDel := by
  intro ps
  induction ps with
  | nil => intro st; exact Or.inl rfl
  | cons p rest ih =>
      intro st
      rw [show delList fs rules0 (p :: rest) st =
          (match delAtPriority fs rules0 p st with
           | (st2, none) => delList fs rules0 rest st2
           | (st2, some e) => (st2, some e)) from rfl]
      rcases hda : delAtPriority fs rules0 p st with ⟨st2, e?⟩
      cases e? with
      | none => exact ih st2
      | some e =>
          have h := delAtPriority_err fs rules0 p st
          rw [hda] at h
          rcases h with h | h
          · simp at h
          · simp only [Option.some.injEq] at h
            subst h
            exact Or.inr rfl

theorem removeRules_err (m : NetlinkManager) (fs : FailSpec) (st : NlState) :
    (removeRules m fs st).2 = none ∨
      (removeRules m fs st).2 = some NlErr.ruleList ∨
      (removeRules m fs st).2 = some NlErr.ruleDel := by
  unfold removeRules
  split
  · exact Or.inr (Or.inl rfl)
  · rcases delList_err fs st.rules (managedPriorities m) st with h | h
    · exact Or.inl h
    · exact Or.inr (Or.inr h)

theorem hRuleAdd_err (fs : FailSpec) (r : Rule) (st : NlState) :
    (hRuleAdd fs r st).2 = none ∨ (hRuleAdd fs r st).2 = some NlErr.ruleAdd := by
  unfold hRuleAdd
  split
  · exact Or.inr rfl
  · exact Or.inl rfl

theorem addList_err (fs : FailSpec) :
    ∀ (rs : List Rule) (st : NlState), (addList fs rs st).2 = none ∨
      (addList fs rs st).2 = some NlErr.ruleAdd := by
  intro rs
  induction rs with
  | nil => intro st; exact Or.inl rfl
  | cons r rest ih =>
      intro st
      rw [show addList fs (r :: rest) st =
          (match hRuleAdd fs r st with
           | (st2, none) => addList fs rest st2
           | (st2, some e) => (st2, some e)) from rfl]
      rcases hra : hRuleAdd fs r st with ⟨st2, e?⟩
      cases e? with
      | none => exact ih st2
      | some e =>
          have h := hRuleAdd_err fs r st
          rw [hra] at h
          rcases h with h | h
          · simp at h
          · simp only [Option.some.injEq] at h
            subst h
            exact Or.inr rfl

theorem addRules_err (m : NetlinkManager) (fs : FailSpec) (st : NlState) :
    ∀ e, (addRules m fs st).2 = some e →
      e = NlErr.ruleList ∨ e = NlErr.ruleDel ∨ e = NlErr.ruleAdd := by
  intro e he
  unfold addRules at he
  rcases hrm : removeRules m fs st with ⟨st2, e?⟩
  rw [hrm] at he
  cases e? with
  | none =>
      rcases addList_err fs (managedRules m) st2 with h | h
      · rw [h] at he; cases he
      · rw [h] at he
        simp only [Option.some.injEq] at he
        subst he
        exact Or.inr (Or.inr rfl)
  | some e2 =>
      simp only [Option.some.injEq] at he
      subst he
      have h := removeRules_err m fs st
      rw [hrm] at h
      rcases h with h | h | h
      · cases h
      · simp only [Option.some.injEq] at h
        subst h
        exact Or.inl rfl
      · simp only [Option.some.injEq] at h
        subst h
        exact Or.inr (Or.inl rfl)

/-- C3 counterexample: `first_table_id = 254` lies outside `[1, 253]`,
yet initialization succeeds instead of failing with the
configuration-range error — the code's upper bound is
`maxTableID = 255 - 1 = 254` applied to `first_table_id` itself, so a
manager with `fallthrough_table_id = 255` is produced. -/
theorem C3_counterexample :
    ¬((1 : Int) ≤ 254 ∧ (254 : Int) ≤ 253) ∧
      excludeNetworks [] 254 1000 noFail ⟨[], [], false⟩ =
        (⟨[⟨1001, 255, none, -1⟩, ⟨1000, 254, none, -1⟩], [], false⟩,
          Except.ok ⟨254, 255, 1000, 1001, 1000, []⟩) :=
  ⟨by decide, rfl⟩

/-- C3 (amended): initialization fails with the table-id
configuration-range error exactly for `first_table_id` outside `[1, 254]`;
the validation bound `maxTableID = 255 - 1 = 254` is applied to
`first_table_id` only, so `fallthrough_table_id = first_table_id + 1` may
be 255. -/
theorem C3_table_id_validation (nets : List IPNet) (tid frp : Int)
    (fs : FailSpec) (st : NlState) :
    (excludeNetworks nets tid frp fs st).2 = Except.error NlErr.invalidTableID ↔
      (tid < 1 ∨ 254 < tid) := by
  constructor
  · intro h
    by_contra hc
    push_neg at hc
    simp only [excludeNetworks] at h
    rw [if_neg (by omega)] at h
    split at h
    · cases h
    · split at h
      · cases h
      · rename_i st2 e heq
        rcases addRules_err _ fs st e (by rw [heq]) with he | he | he <;>
          · subst he
            cases h
  · intro h
    simp only [excludeNetworks]
    rw [if_pos (by omega)]

/-! ### The clean installation path -/

theorem lookupByPriority_eq_none (rules : List Rule) (p : Int)
    (h : ∀ r ∈ rules, r.priority ≠ p) : lookupByPriority rules p = none := by
  unfold lookupByPriority
  rw [List.find?_eq_none]
  intro r hr
  simp only [decide_eq_true_eq]
  exact h r (List.mem_reverse.mp hr)

theorem delList_none (fs : FailSpec) (rules0 : List Rule) :
    ∀ (ps : List Int) (st : NlState),
      (∀ p ∈ ps, lookupByPriority rules0 p = none) →
      delList fs rules0 ps st = (st, none) := by
  intro ps
  induction ps with
  | nil => intro st _; rfl
  | cons p rest ih =>
      intro st h
      rw [show delList fs rules0 (p :: rest) st =
          (match delAtPriority fs rules0 p st with
           | (st2, none) => delList fs rules0 rest st2
           | (st2, some e) => (st2, some e)) from rfl]
      have hp : delAtPriority fs rules0 p st = (st, none) := by
        unfold delAtPriority
        rw [h p (List.mem_cons_self p rest)]
      rw [hp]
      exact ih st (fun q hq => h q (List.mem_cons_of_mem p hq))

theorem removeRules_clean (m : NetlinkManager) (fs : FailSpec) (st : NlState)
    (hlist : fs.ruleListFails = false)
    (hclean : ∀ r ∈ st.rules, r.priority ∉ managedPriorities m) :
    removeRules m fs st = (st, none) := by
  unfold removeRules
  rw [if_neg (by simp [hlist])]
  refine delList_none fs st.rules (managedPriorities m) st ?_
  intro p hp
  refine lookupByPriority_eq_none st.rules p ?_
  intro r hr hcontra
  exact hclean r hr (by rw [hcontra]; exact hp)

theorem addList_ok (fs : FailSpec) (hadd : ∀ r, fs.ruleAddFails r = false) :
    ∀ (rs : List Rule) (st : NlState),
      addList fs rs st = (⟨st.rules ++ rs, st.routes, st.closed⟩, none) := by
  intro rs
  induction rs with
  | nil => intro st; cases st; simp [addList]
  | cons r rest ih =>
      intro st
      rw [show addList fs (r :: rest) st =
          (match hRuleAdd fs r st with
           | (st2, none) => addList fs rest st2
           | (st2, some e) => (st2, some e)) from rfl]
      have h1 : hRuleAdd fs r st = ({ st with rules := st.rules ++ [r] }, none) := by
        unfold hRuleAdd
        rw [if_neg (by simp [hadd r])]
      rw [h1]
      show addList fs rest
        { rules := st.rules ++ [r], routes := st.routes, closed := st.closed } = _
      rw [ih]
      simp

theorem addRules_clean (m : NetlinkManager) (st : NlState)
    (hclean : ∀ r ∈ st.rules, r.priority ∉ managedPriorities m) :
    addRules m noFail st =
      (⟨st.rules ++ managedRules m, st.routes, st.closed⟩, none) := by
  unfold addRules
  rw [removeRules_clean m noFail st rfl hclean]
  exact addList_ok noFail (fun r => rfl) (managedRules m) st

theorem excludeNetworks_clean (nets : List IPNet) (tid frp : Int) (st : NlState)
    (htid : ¬(tid < 1 ∨ tid > 255 - 1))
    (hfrp : ¬(frp < 1 ∨ frp > 32766 - ((ReduceNetworks nets).length + 2) + 1))
    (hclean : ∀ r ∈ st.rules, r.priority ∉ managedPriorities
      ⟨tid, tid + 1, frp, frp + (ReduceNetworks nets).length + 1,
        frp + (ReduceNetworks nets).length + 1 - 1, ReduceNetworks nets⟩) :
    excludeNetworks nets tid frp noFail st =
      (⟨st.rules ++ managedRules
          ⟨tid, tid + 1, frp, frp + (ReduceNetworks nets).length + 1,
            frp + (ReduceNetworks nets).length + 1 - 1, ReduceNetworks nets⟩,
        st.routes, st.closed⟩,
       Except.ok ⟨tid, tid + 1, frp, frp + (ReduceNetworks nets).length + 1,
         frp + (ReduceNetworks nets).length + 1 - 1, ReduceNetworks nets⟩) := by
  simp only [excludeNetworks]
  rw [if_neg htid, if_neg hfrp, addRules_clean _ st hclean]

theorem managedRules_explicit (tid frp : Int) (nets2 : List IPNet) :
    managedRules ⟨tid, tid + 1, frp, frp + nets2.length + 1,
        frp + nets2.length + 1 - 1, nets2⟩ =
      [⟨frp + nets2.length + 1, tid + 1, none, -1⟩] ++
        nets2.enum.map (fun e =>
          ⟨frp + e.1, 0, some e.2, frp + nets2.length + 1⟩) ++
        [⟨frp + nets2.length, tid, none, -1⟩] := by
  simp only [managedRules, mkFallthroughRule, mkExcludeRule, mkGatewayRule]
  rw [Int.add_sub_cancel]

theorem mem_managedPriorities (m : NetlinkManager) (p : Int)
    (hp : p ∈ managedPriorities m) :
    p = m.gatewayTableRulePreference ∨
      (∃ i : Nat, i < m.excludeNets.length ∧
        p = m.firstExcludeRulePreference + i) ∨
      p = m.fallthroughTableRulePreference := by
  unfold managedPriorities at hp
  rcases List.mem_append.mp hp with h1 | h2
  · rcases List.mem_append.mp h1 with h3 | h4
    · exact Or.inl (List.mem_singleton.mp h3)
    · rcases List.mem_map.mp h4 with ⟨i, hi, hpi⟩
      exact Or.inr (Or.inl ⟨i, List.mem_range.mp hi, hpi.symm⟩)
  · exact Or.inr (Or.inr (List.mem_singleton.mp h2))

/-- C2: after a successful initialization with reduced exclude list of
length `N` and first rule preference `P` (starting from kernel state
with no rules at the managed priorities and no injected failures), the
rules gained are exactly: for every `i < N` an exclude rule at priority
`P + i` with destination `reduced[i]` and a goto targeting priority
`P + N + 1`; a gateway-table lookup rule at priority `P + N`; and a
fallthrough-table lookup rule at priority `P + N + 1` — so each exclude
priority is below the gateway rule's priority, which is below the
fallthrough rule's.  The final conjunct is the S6 instance: excludes
`[10.0.0.0/8]`, `first_table_id = 100`, `first_rule_pref = 1000`
installs exactly `1000: to 10.0.0.0/8 goto 1002`, `1001: lookup 100`,
`1002: lookup 101`. -/
theorem C2_installed_rules (nets : List IPNet) (tid frp : Int) (st : NlState)
    (htid : 1 ≤ tid ∧ tid ≤ 254)
    (hfrp : 1 ≤ frp ∧ frp + (ReduceNetworks nets).length + 1 ≤ 32766)
    (hclean : ∀ r ∈ st.rules, ∀ i : Nat, i ≤ (ReduceNetworks nets).length + 1 →
      r.priority ≠ frp + i) :
    (excludeNetworks nets tid frp noFail st).2 =
      Except.ok ⟨tid, tid + 1, frp, frp + (ReduceNetworks nets).length + 1,
        frp + (ReduceNetworks nets).length, ReduceNetworks nets⟩ ∧
    (excludeNetworks nets tid frp noFail st).1.rules =
      st.rules ++
        ([⟨frp + (ReduceNetworks nets).length + 1, tid + 1, none, -1⟩] ++
          (ReduceNetworks nets).enum.map (fun e =>
            ⟨frp + e.1, 0, some e.2, frp + (ReduceNetworks nets).length + 1⟩) ++
          [⟨frp + (ReduceNetworks nets).length, tid, none, -1⟩]) ∧
    (excludeNetworks nets tid frp noFail st).1.routes = st.routes ∧
    (∀ i : Nat, i < (ReduceNetworks nets).length →
      frp + i < frp + (ReduceNetworks nets).length) ∧
    frp + (ReduceNetworks nets).length < frp + (ReduceNetworks nets).length + 1 ∧
    excludeNetworks [⟨167772160, 8⟩] 100 1000 noFail ⟨[], [], false⟩ =
      (⟨[⟨1002, 101, none, -1⟩, ⟨1000, 0, some ⟨167772160, 8⟩, 1002⟩,
          ⟨1001, 100, none, -1⟩], [], false⟩,
        Except.ok ⟨100, 101, 1000, 1002, 1001, [⟨167772160, 8⟩]⟩) := by
  have hclean2 : ∀ r ∈ st.rules, r.priority ∉ managedPriorities
      ⟨tid, tid + 1, frp, frp + (ReduceNetworks nets).length + 1,
        frp + (ReduceNetworks nets).length + 1 - 1, ReduceNetworks nets⟩ := by
    intro r hr hp
    have hN := hclean r hr (ReduceNetworks nets).length (by omega)
    have hN1 := hclean r hr ((ReduceNetworks nets).length + 1) (by omega)
    push_cast at hN hN1
    rcases mem_managedPriorities _ _ hp with hgw | ⟨i, hi, hpi⟩ | hft
    · dsimp only at hgw
      omega
    · dsimp only at hpi hi
      have hIi := hclean r hr i (by omega)
      omega
    · dsimp only at hft
      omega
  have hmain := excludeNetworks_clean nets tid frp st (by omega)
    (by push_cast; omega) hclean2
  refine ⟨?_, ?_, ?_, ?_, ?_, rfl⟩
  · rw [hmain]
    simp only [Except.ok.injEq, NetlinkManager.mk.injEq, and_true, true_and]
    omega
  · rw [hmain]
    show st.rules ++ managedRules _ = _
    rw [managedRules_explicit]
  · rw [hmain]
  · intro i hi
    omega
  · omega

/-- The C2 theorem applied at the S6 instance, all hypotheses
discharged: the concrete initialization installs exactly the three S6
rules. -/
theorem C2_installed_rules_witness :
    excludeNetworks [⟨167772160, 8⟩] 100 1000 noFail ⟨[], [], false⟩ =
      (⟨[⟨1002, 101, none, -1⟩, ⟨1000, 0, some ⟨167772160, 8⟩, 1002⟩,
          ⟨1001, 100, none, -1⟩], [], false⟩,
        Except.ok ⟨100, 101, 1000, 1002, 1001, [⟨167772160, 8⟩]⟩) :=
  (C2_installed_rules [⟨167772160, 8⟩] 100 1000 ⟨[], [], false⟩
    (by decide) (by decide)
    (by intro r hr; exact absurd hr (List.not_mem_nil r))).2.2.2.2.2

/-! ### Teardown: what each phase of `Close` touches -/

theorem hRuleDel_routes (fs : FailSpec) (r : Rule) (st : NlState) :
    (hRuleDel fs r st).1.routes = st.routes ∧
      (hRuleDel fs r st).1.closed = st.closed := by
  unfold hRuleDel
  split
  · exact ⟨rfl, rfl⟩
  · exact ⟨rfl, rfl⟩

theorem delAtPriority_routes (fs : FailSpec) (rules0 : List Rule) (p : Int)
    (st : NlState) :
    (delAtPriority fs rules0 p st).1.routes = st.routes ∧
      (delAtPriority fs rules0 p st).1.closed = st.closed := by
  unfold delAtPriority
  cases lookupByPriority rules0 p with
  | none => exact ⟨rfl, rfl⟩
  | some r => exact hRuleDel_routes fs r st

theorem delList_routes (fs : FailSpec) (rules0 : List Rule) :
    ∀ (ps : List Int) (st : NlState),
      (delList fs rules0 ps st).1.routes = st.routes ∧
        (delList fs rules0 ps st).1.closed = st.closed := by
  intro ps
  induction ps with
  | nil => intro st; exact ⟨rfl, rfl⟩
  | cons p rest ih =>
      intro st
      rw [show delList fs rules0 (p :: rest) st =
          (match delAtPriority fs rules0 p st with
           | (st2, none) => delList fs rules0 rest st2
           | (st2, some e) => (st2, some e)) from rfl]
      rcases hda : delAtPriority fs rules0 p st with ⟨st2, e?⟩
      have hpre := delAtPriority_routes fs rules0 p st
      rw [hda] at hpre
      cases e? with
      | none =>
          refine ⟨?_, ?_⟩
          · rw [(ih st2).1]; exact hpre.1
          · rw [(ih st2).2]; exact hpre.2
      | some e => exact hpre

theorem removeRules_routes (m : NetlinkManager) (fs : FailSpec) (st : NlState) :
    (removeRules m fs st).1.routes = st.routes ∧
      (removeRules m fs st).1.closed = st.closed := by
  unfold removeRules
  split
  · exact ⟨rfl, rfl⟩
  · exact delList_routes fs st.rules (managedPriorities m) st

theorem removeRoutesLoop_rules (fs : FailSpec) :
    ∀ (l : List Route) (st : NlState),
      (removeRoutesLoop fs l st).1.rules = st.rules ∧
        (removeRoutesLoop fs l st).1.closed = st.closed := by
  intro l
  induction l with
  | nil => intro st; exact ⟨rfl, rfl⟩
  | cons r rest ih =>
      intro st
      rw [show removeRoutesLoop fs (r :: rest) st =
          (if fs.routeDelFails r then (st, some NlErr.routeDel)
           else removeRoutesLoop fs rest
             { st with routes := st.routes.erase r }) from rfl]
      split
      · exact ⟨rfl, rfl⟩
      · exact ih { st with routes := st.routes.erase r }

theorem removeRoutes_rules (m : NetlinkManager) (fs : FailSpec) (st : NlState) :
    (removeRoutes m fs st).1.rules = st.rules ∧
      (removeRoutes m fs st).1.closed = st.closed := by
  unfold removeRoutes
  split
  · exact ⟨rfl, rfl⟩
  · split
    · exact ⟨rfl, rfl⟩
    · exact removeRoutesLoop_rules fs _ st

/-- With no deletion failures, the deletion loop removes exactly the
listed routes (listing and kernel state free of duplicates). -/
theorem removeRoutesLoop_mem (fs : FailSpec)
    (hok : ∀ r, fs.routeDelFails r = false) :
    ∀ (l : List Route) (st : NlState), st.routes.Nodup →
      (∀ q ∈ l, q ∈ st.routes) → l.Nodup →
      ∀ q, q ∈ (removeRoutesLoop fs l st).1.routes ↔
        (q ∈ st.routes ∧ q ∉ l) := by
  intro l
  induction l with
  | nil => intro st _ _ _ q; simp [removeRoutesLoop]
  | cons r rest ih =>
      intro st hnd hsub hlnd q
      rw [show removeRoutesLoop fs (r :: rest) st =
          (if fs.routeDelFails r then (st, some NlErr.routeDel)
           else removeRoutesLoop fs rest
             { st with routes := st.routes.erase r }) from rfl]
      rw [if_neg (by simp [hok r])]
      rcases List.pairwise_cons.mp hlnd with ⟨hr_rest, hrestnd⟩
      have hsub2 : ∀ q2 ∈ rest, q2 ∈ st.routes.erase r := by
        intro q2 hq2
        exact (List.Nodup.mem_erase_iff hnd).mpr
          ⟨fun he => (hr_rest q2 hq2) he.symm, hsub q2 (List.mem_cons_of_mem r hq2)⟩
      have := ih { st with routes := st.routes.erase r }
        (hnd.erase r) hsub2 hrestnd q
      rw [this]
      simp only [List.Nodup.mem_erase_iff hnd, List.mem_cons]
      constructor
      · rintro ⟨⟨hne, hmem⟩, hnr⟩
        exact ⟨hmem, fun h => h.elim hne hnr⟩
      · rintro ⟨hmem, hn⟩
        exact ⟨⟨fun h => hn (Or.inl h), hmem⟩, fun h => hn (Or.inr h)⟩

/-- With no route-operation failures and a nonzero gateway table id, the
route phase leaves no route of the gateway table behind. -/
theorem removeRoutes_clears (m : NetlinkManager) (fs : FailSpec) (st : NlState)
    (hlist : fs.routeListFails = false)
    (hok : ∀ r, fs.routeDelFails r = false)
    (htid : m.gatewayTableID ≠ 0) (hnd : st.routes.Nodup) :
    ∀ q ∈ (removeRoutes m fs st).1.routes, q.table ≠ m.gatewayTableID := by
  intro q hq
  unfold removeRoutes at hq
  rw [if_neg htid, if_neg (by simp [hlist])] at hq
  have hmem := (removeRoutesLoop_mem fs hok
    (st.routes.filter (fun r => decide (r.table = m.gatewayTableID))) st hnd
    (fun q2 hq2 => (List.mem_filter.mp hq2).1) (hnd.filter _) q).mp hq
  intro htab
  exact hmem.2 (List.mem_filter.mpr ⟨hmem.1, by simp [htab]⟩)

theorem lookupByPriority_some (rules : List Rule) (p : Int) (r : Rule)
    (h : lookupByPriority rules p = some r) : r ∈ rules ∧ r.priority = p := by
  unfold lookupByPriority at h
  refine ⟨List.mem_reverse.mp (List.mem_of_find?_eq_some h), ?_⟩
  have h2 := List.find?_some h
  simpa using h2

theorem lookupByPriority_none_iff (rules : List Rule) (p : Int)
    (h : lookupByPriority rules p = none) : ∀ r ∈ rules, r.priority ≠ p := by
  intro r hr
  unfold lookupByPriority at h
  have h2 := List.find?_eq_none.mp h r (List.mem_reverse.mpr hr)
  simpa using h2

/-- With no deletion failures and priority-unique listed rules, the rule
deletion pass removes every rule whose priority is among the given
priorities. -/
theorem delList_removes (fs : FailSpec) (rules0 : List Rule)
    (hok : ∀ r, fs.ruleDelFails r = false)
    (hnd : rules0.Pairwise (fun a b => a.priority ≠ b.priority)) :
    ∀ (ps : List Int) (st : NlState), st.rules.Nodup →
      (∀ r ∈ st.rules, r ∈ rules0) →
      ∀ r ∈ (delList fs rules0 ps st).1.rules,
        r ∈ st.rules ∧ r.priority ∉ ps := by
  have huniq : ∀ a ∈ rules0, ∀ b ∈ rules0, a.priority = b.priority → a = b := by
    intro a ha b hb hab
    by_contra hne
    exact (List.Pairwise.forall (fun x y h => Ne.symm h) hnd) ha hb hne hab
  intro ps
  induction ps with
  | nil =>
      intro st _ _ r hr
      exact ⟨hr, List.not_mem_nil _⟩
  | cons p rest ih =>
      intro st hstnd hstsub r hr
      rw [show delList fs rules0 (p :: rest) st =
          (match delAtPriority fs rules0 p st with
           | (st2, none) => delList fs rules0 rest st2
           | (st2, some e) => (st2, some e)) from rfl] at hr
      unfold delAtPriority at hr
      cases hlk : lookupByPriority rules0 p with
      | none =>
          rw [hlk] at hr
          have hres := ih st hstnd hstsub r hr
          refine ⟨hres.1, ?_⟩
          intro hmem
          rcases List.mem_cons.mp hmem with hrp | hrp
          · exact lookupByPriority_none_iff rules0 p hlk r
              (hstsub r hres.1) hrp
          · exact hres.2 hrp
      | some rp =>
          rw [hlk] at hr
          dsimp only at hr
          rw [show hRuleDel fs rp st =
              ({ st with rules := st.rules.erase rp }, none) from by
            unfold hRuleDel; rw [if_neg (by simp [hok rp])]] at hr
          have hsub2 : ∀ r2 ∈ st.rules.erase rp, r2 ∈ rules0 :=
            fun r2 hr2 => hstsub r2 (List.mem_of_mem_erase hr2)
          have hres := ih { st with rules := st.rules.erase rp }
            (hstnd.erase rp) hsub2 r hr
          have hrmem : r ∈ st.rules := List.mem_of_mem_erase hres.1
          refine ⟨hrmem, ?_⟩
          intro hmem
          rcases List.mem_cons.mp hmem with hrp2 | hrp2
          · -- r has the deleted priority: r must be the looked-up rule,
            -- already erased from the state the recursion ran on
            have hlkp := lookupByPriority_some rules0 p rp hlk
            have : r = rp := huniq r (hstsub r hrmem) rp hlkp.1
              (by rw [hrp2, hlkp.2])
            rw [this] at hres
            exact ((List.Nodup.mem_erase_iff hstnd).mp hres.1).1 rfl
          · exact hres.2 hrp2

/-- With no listing or deletion failures and priority-unique kernel
rules, `removeRules` leaves no rule at a managed priority. -/
theorem removeRules_removes (m : NetlinkManager) (fs : FailSpec) (st : NlState)
    (hlist : fs.ruleListFails = false)
    (hok : ∀ r, fs.ruleDelFails r = false)
    (hnd : st.rules.Pairwise (fun a b => a.priority ≠ b.priority)) :
    ∀ r ∈ (removeRules m fs st).1.rules,
      r ∈ st.rules ∧ r.priority ∉ managedPriorities m := by
  intro r hr
  unfold removeRules at hr
  rw [if_neg (by simp [hlist])] at hr
  exact delList_removes fs st.rules hok hnd (managedPriorities m) st
    (hnd.imp (fun h => fun hab => h (by rw [hab]))) (fun r2 h => h) r hr

/-- C5 counterexample: with a failure injected only on deleting the
gateway rule (priority 1001), `Close` aborts the whole rule phase at
that first failure: the fallthrough rule (priority 1002) is left
installed even though deleting it would have succeeded — the rule phase
is not best-effort per rule. -/
theorem C5_counterexample :
    (closeManager ⟨100, 101, 1000, 1002, 1001, []⟩
        ⟨false, fun _ => false, fun r => decide (r.priority = 1001), false,
          fun _ => false⟩
        ⟨[⟨1001, 100, none, -1⟩, ⟨1002, 101, none, -1⟩], [], false⟩).1.rules =
      [⟨1001, 100, none, -1⟩, ⟨1002, 101, none, -1⟩] ∧
    (closeManager ⟨100, 101, 1000, 1002, 1001, []⟩
        ⟨false, fun _ => false, fun r => decide (r.priority = 1001), false,
          fun _ => false⟩
        ⟨[⟨1001, 100, none, -1⟩, ⟨1002, 101, none, -1⟩], [], false⟩).2 =
      [NlErr.ruleDel] ∧
    (fun (r : Rule) => decide (r.priority = 1001)) ⟨1002, 101, none, -1⟩ =
      false :=
  ⟨rfl, rfl, rfl⟩

/-- C5 (amended): `Close` is best-effort across its phases, not within
them: it always marks the handle closed; the rule phase runs regardless
of route-phase failures and (absent rule-operation failures, with
priority-unique kernel rules) leaves no rule at a managed priority; the
route phase (absent route-operation failures, with a nonzero gateway
table id and duplicate-free kernel routes) leaves no route in the
gateway table; and the surfaced error joins the route-phase errors with
the rule-phase error.  Within each phase, however, the first deletion
failure aborts the remaining deletions of that phase. -/
theorem C5_close_best_effort (m : NetlinkManager) (fs : FailSpec)
    (st : NlState) :
    (closeManager m fs st).1.closed = true ∧
    (fs.ruleListFails = false → (∀ r, fs.ruleDelFails r = false) →
      st.rules.Pairwise (fun a b => a.priority ≠ b.priority) →
      ∀ r ∈ (closeManager m fs st).1.rules,
        r.priority ∉ managedPriorities m) ∧
    (fs.routeListFails = false → (∀ r, fs.routeDelFails r = false) →
      m.gatewayTableID ≠ 0 → st.routes.Nodup →
      ∀ q ∈ (closeManager m fs st).1.routes, q.table ≠ m.gatewayTableID) ∧
    (closeManager m fs st).2 =
      (removeRoutes m fs st).2 ++
        (removeRules m fs (removeRoutes m fs st).1).2.toList := by
  refine ⟨rfl, ?_, ?_, rfl⟩
  · intro hlist hok hnd r hr
    have hrules1 : (removeRoutes m fs st).1.rules = st.rules :=
      (removeRoutes_rules m fs st).1
    have hr2 : r ∈ (removeRules m fs (removeRoutes m fs st).1).1.rules := hr
    have := removeRules_removes m fs (removeRoutes m fs st).1 hlist hok
      (by rw [hrules1]; exact hnd) r hr2
    exact this.2
  · intro hlist hok htid hnd q hq
    have hq2 : q ∈ (removeRules m fs (removeRoutes m fs st).1).1.routes := hq
    rw [(removeRules_routes m fs (removeRoutes m fs st).1).1] at hq2
    exact removeRoutes_clears m fs st hlist hok htid hnd q hq2

/-- The C5 theorem applied at the S6 teardown instance (all operations
succeeding): the three managed rules and the gateway-table route are all
removed and the handle is closed. -/
theorem C5_close_best_effort_witness :
    (closeManager ⟨100, 101, 1000, 1002, 1001, [⟨167772160, 8⟩]⟩ noFail
        ⟨[⟨1002, 101, none, -1⟩, ⟨1000, 0, some ⟨167772160, 8⟩, 1002⟩,
           ⟨1001, 100, none, -1⟩], [⟨some ⟨0, 0⟩, 100, []⟩], false⟩).1.closed =
      true ∧
    (∀ r ∈ (closeManager ⟨100, 101, 1000, 1002, 1001, [⟨167772160, 8⟩]⟩ noFail
        ⟨[⟨1002, 101, none, -1⟩, ⟨1000, 0, some ⟨167772160, 8⟩, 1002⟩,
           ⟨1001, 100, none, -1⟩], [⟨some ⟨0, 0⟩, 100, []⟩], false⟩).1.rules,
      r.priority ∉ managedPriorities ⟨100, 101, 1000, 1002, 1001,
        [⟨167772160, 8⟩]⟩) ∧
    (∀ q ∈ (closeManager ⟨100, 101, 1000, 1002, 1001, [⟨167772160, 8⟩]⟩ noFail
        ⟨[⟨1002, 101, none, -1⟩, ⟨1000, 0, some ⟨167772160, 8⟩, 1002⟩,
           ⟨1001, 100, none, -1⟩], [⟨some ⟨0, 0⟩, 100, []⟩], false⟩).1.routes,
      q.table ≠ (100 : Int)) := by
  have h := C5_close_best_effort ⟨100, 101, 1000, 1002, 1001, [⟨167772160, 8⟩]⟩
    noFail
    ⟨[⟨1002, 101, none, -1⟩, ⟨1000, 0, some ⟨167772160, 8⟩, 1002⟩,
       ⟨1001, 100, none, -1⟩], [⟨some ⟨0, 0⟩, 100, []⟩], false⟩
  exact ⟨h.1, h.2.1 rfl (fun r => rfl) (by decide),
    h.2.2.1 rfl (fun r => rfl) (by decide) (by decide)⟩

/-! ### The per-destination upsert of the reconciliation -/

theorem sortedBy_eq_of_perm (lt : α → α → Bool)
    (hties : ∀ a b, lt a b = false → lt b a = false → a = b)
    (l1 l2 : List α) (hp : List.Perm l1 l2)
    (h1 : SortedBy lt l1) (h2 : SortedBy lt l2) : l1 = l2 := by
  haveI : IsAntisymm α (fun a b => lt b a = false) :=
    ⟨fun a b hab hba => hties a b hba hab⟩
  exact List.eq_of_perm_of_sorted hp h1 h2

/-- Sorting is invariant under permutation of the input (ties being
equalities). -/
theorem sortBy_congr_perm (lt : α → α → Bool)
    (htr : ∀ a b c, lt a b = true → lt b c = true → lt a c = true)
    (hasym : ∀ a b, lt a b = true → lt b a = false)
    (hties : ∀ a b, lt a b = false → lt b a = false → a = b)
    (l1 l2 : List α) (hp : List.Perm l1 l2) :
    sortBy lt l1 = sortBy lt l2 :=
  sortedBy_eq_of_perm lt hties _ _
    ((sortBy_perm lt l1).trans (hp.trans (sortBy_perm lt l2).symm))
    (sortedBy_sortBy lt htr hasym l1) (sortedBy_sortBy lt htr hasym l2)

/-- Upserting `x` leaves exactly `[x]` under `x`'s own key. -/
theorem filter_upsert (p : α → Bool) (x : α) (hx : p x = true) :
    ∀ l : List α, ((l.filter (fun a => !(p a))) ++ [x]).filter p = [x] := by
  intro l
  induction l with
  | nil => simp [hx]
  | cons a l ih =>
      by_cases ha : p a = true
      · simpa [List.filter_cons, ha] using ih
      · have ha2 : p a = false := by simpa using ha
        simpa [List.filter_cons, ha2] using ih

/-- Upserting under one key does not change the view under a disjoint
key. -/
theorem filter_upsert_other (p pk : α → Bool) (x : α)
    (hx : pk x = false) (himp : ∀ a, p a = true → pk a = false) :
    ∀ l : List α, ((l.filter (fun a => !(p a))) ++ [x]).filter pk =
      l.filter pk := by
  intro l
  induction l with
  | nil => simp [hx]
  | cons a l ih =>
      by_cases ha : p a = true
      · have hka : pk a = false := himp a ha
        simpa [List.filter_cons, ha, hka] using ih
      · have ha2 : p a = false := by simpa using ha
        by_cases hka : pk a = true
        · simpa [List.filter_cons, ha2, hka] using ih
        · have hka2 : pk a = false := by simpa using hka
          simpa [List.filter_cons, ha2, hka2] using ih

theorem routeKey_self (m : NetlinkManager) (d : IPNet) (s : List Nat) :
    routeKey m d ⟨some d, m.gatewayTableID, s⟩ = true := by
  simp [routeKey]

theorem routeKey_of_ne (m : NetlinkManager) (d d2 : IPNet) (hne : d2 ≠ d)
    (a : Route) (ha : routeKey m d2 a = true) : routeKey m d a = false := by
  simp only [routeKey, Bool.and_eq_true, decide_eq_true_eq] at ha
  simp [routeKey, ha.2, hne]

/-- Destinations other than `d` do not disturb the view under `d`'s
key. -/
theorem fold_filter_congr (m : NetlinkManager) (s : List Nat) (d : IPNet) :
    ∀ (ds : List IPNet) (acc : List Route), (∀ d2 ∈ ds, d2 ≠ d) →
      (ds.foldl (fun acc2 d2 => acc2.filter (fun q => !(routeKey m d2 q)) ++
          [⟨some d2, m.gatewayTableID, s⟩]) acc).filter (routeKey m d) =
        acc.filter (routeKey m d) := by
  intro ds
  induction ds with
  | nil => intro acc _; rfl
  | cons d2 rest ih =>
      intro acc h
      rw [List.foldl_cons]
      rw [ih _ (fun x hx => h x (List.mem_cons_of_mem d2 hx))]
      exact filter_upsert_other (routeKey m d2) (routeKey m d)
        ⟨some d2, m.gatewayTableID, s⟩
        (by have hd2 : d2 ≠ d := h d2 (List.mem_cons_self d2 rest)
            simp [routeKey, hd2])
        (routeKey_of_ne m d d2 (h d2 (List.mem_cons_self d2 rest))) acc

/-- After the per-destination fold, each destination of the list owns
exactly its freshly upserted route. -/
theorem fold_filter_self (m : NetlinkManager) (s : List Nat) (d : IPNet) :
    ∀ (ds : List IPNet) (acc : List Route), d ∈ ds →
      (ds.foldl (fun acc2 d2 => acc2.filter (fun q => !(routeKey m d2 q)) ++
          [⟨some d2, m.gatewayTableID, s⟩]) acc).filter (routeKey m d) =
        [⟨some d, m.gatewayTableID, s⟩] := by
  intro ds
  induction ds with
  | nil => intro acc h; cases h
  | cons d2 rest ih =>
      intro acc hd
      rw [List.foldl_cons]
      by_cases hmem : d ∈ rest
      · exact ih _ hmem
      · have hdd : d = d2 := by
          rcases List.mem_cons.mp hd with h | h
          · exact h
          · exact absurd h hmem
        subst hdd
        rw [fold_filter_congr m s d rest _ (fun x hx hxd => hmem (hxd ▸ hx))]
        exact filter_upsert (routeKey m d) _ (routeKey_self m d s) acc

/-- The stale-route sweep keeps every route keyed to a still-managed
destination. -/
theorem final_filter_key (m : NetlinkManager) (dests : List IPNet) (d : IPNet)
    (hd : d ∈ dests) :
    ∀ l : List Route,
      (l.filter (fun r => decide (r.table ≠ m.gatewayTableID) ||
          dests.any (fun d2 => decide (r.dst = some d2)))).filter
        (routeKey m d) = l.filter (routeKey m d) := by
  intro l
  induction l with
  | nil => rfl
  | cons q l ih =>
      by_cases hkeep : (decide (q.table ≠ m.gatewayTableID) ||
          dests.any (fun d2 => decide (q.dst = some d2))) = true
      · simp only [List.filter_cons]
        rw [if_pos hkeep, List.filter_cons]
        by_cases hk : routeKey m d q = true
        · rw [if_pos hk, if_pos hk, ih]
        · rw [if_neg hk, if_neg hk, ih]
      · have hk : ¬(routeKey m d q = true) := by
          intro hk
          apply hkeep
          simp only [routeKey, Bool.and_eq_true, decide_eq_true_eq] at hk
          simp only [Bool.or_eq_true, List.any_eq_true, decide_eq_true_eq]
          exact Or.inr ⟨d, hd, hk.2⟩
        simp only [List.filter_cons]
        rw [if_neg hkeep, ih, if_neg hk]

/-- C1 (spec-modelled): after a successful `update(M, A)` with `A`
nonempty, the gateway table holds, for every managed destination
`d ∈ M`, exactly one route keyed to `d`, and its multipath nexthops,
taken as a sorted list of string forms, are the sorted string forms of
`A`. -/
theorem C1_update_routes (m : NetlinkManager) (dests : List IPNet)
    (gws : List Nat) (routes : List Route) (hne : gws ≠ []) (d : IPNet)
    (hd : d ∈ dests) :
    (UpdateRoutes m dests gws routes).filter (routeKey m d) =
      [⟨some d, m.gatewayTableID, sortBy ipStrLess gws⟩] ∧
    sortBy goStrLt ((sortBy ipStrLess gws).map ipToString) =
      sortBy goStrLt (gws.map ipToString) := by
  constructor
  · simp only [UpdateRoutes]
    rw [if_neg hne]
    rw [final_filter_key m dests d hd]
    exact fold_filter_self m (sortBy ipStrLess gws) d dests routes hd
  · exact sortBy_congr_perm goStrLt goStrLt_trans goStrLt_asymm goStrLt_ties
      _ _ (List.Perm.map ipToString (sortBy_perm ipStrLess gws))

/-- The C1 theorem applied at the S7-style instance: table 100, managed
destination `0.0.0.0/0`, active gateways `192.168.1.3` and
`192.168.1.1`, empty initial table — one route, nexthops sorted by
string form (`192.168.1.1` before `192.168.1.3`). -/
theorem C1_update_routes_witness :
    ((UpdateRoutes ⟨100, 101, 1000, 1002, 1001, []⟩ [⟨0, 0⟩]
        [3232235779, 3232235777] []).filter
      (routeKey ⟨100, 101, 1000, 1002, 1001, []⟩ ⟨0, 0⟩) =
      [⟨some ⟨0, 0⟩, 100, sortBy ipStrLess [3232235779, 3232235777]⟩] ∧
    sortBy goStrLt ((sortBy ipStrLess [3232235779, 3232235777]).map ipToString) =
      sortBy goStrLt ([3232235779, 3232235777].map ipToString)) ∧
    sortBy ipStrLess [3232235779, 3232235777] = [3232235777, 3232235779] :=
  ⟨C1_update_routes ⟨100, 101, 1000, 1002, 1001, []⟩ [⟨0, 0⟩]
      [3232235779, 3232235777] [] (by simp) ⟨0, 0⟩ (List.mem_singleton.mpr rfl),
    by decide⟩

end GatewayRouteManager
